import Mathlib

/-!
Verification development for the `ableton_log` structural XML diff
(`ableton_diff.py`).  The Python source is shallowly embedded: elements
become a `Tree` inductive, the per-tag `shallow_equal` methods become
functions over `Tree`, runtime exceptions become an `Except DiffError`
monad, and the iterator-based alignment loop of `recurse_diff` becomes a
structurally recursive function over the two child lists.
-/

namespace AbletonDiff

/-- Runtime errors raised inside the diff core: `KeyError` (a missing
dictionary key in `dict.pop`), `InvalidOperation` (an unparseable decimal
string or a quantize result exceeding the 28-digit context precision), and
`IndexError` (indexing `[0]` into an empty xpath result list). -/
inductive DiffError where
  | keyError
  | invalidOperation
  | indexError
deriving DecidableEq

/-- A parsed XML element as exposed by lxml: tag name, attribute mapping
(an association list standing for the attribute dictionary; real documents
have pairwise distinct keys), the raw text content, and the ordered list of
child elements. -/
inductive Tree where
  | node (tag : String) (attrib : List (String × String))
      (rawText : Option String) (children : List Tree)

mutual

/-- Decidable equality of elements (the nested inductive rules out the
derived instance). -/
def Tree.decEq : (t u : Tree) → Decidable (t = u)
  | .node t1 a1 x1 c1, .node t2 a2 x2 c2 =>
    if h1 : t1 = t2 then
      if h2 : a1 = a2 then
        if h3 : x1 = x2 then
          match Tree.decEqList c1 c2 with
          | isTrue h4 => isTrue (by rw [h1, h2, h3, h4])
          | isFalse h4 => isFalse (fun h => h4 (by injection h))
        else isFalse (fun h => h3 (by injection h))
      else isFalse (fun h => h2 (by injection h))
    else isFalse (fun h => h1 (by injection h))

/-- Decidable equality of element lists. -/
def Tree.decEqList : (ts us : List Tree) → Decidable (ts = us)
  | [], [] => isTrue rfl
  | [], _ :: _ => isFalse (fun h => List.noConfusion h)
  | _ :: _, [] => isFalse (fun h => List.noConfusion h)
  | a :: as, b :: bs =>
    match Tree.decEq a b, Tree.decEqList as bs with
    | isTrue h1, isTrue h2 => isTrue (by rw [h1, h2])
    | isFalse h1, _ => isFalse (fun h => h1 (by injection h))
    | _, isFalse h2 => isFalse (fun h => h2 (by injection h))

end

instance : DecidableEq Tree := Tree.decEq

mutual

/-- Number of elements in a tree; the structural measure of the diff
recursion. -/
def Tree.size : Tree → Nat
  | .node _ _ _ cs => 1 + Tree.sizeList cs

/-- Total number of elements in a list of trees. -/
def Tree.sizeList : List Tree → Nat
  | [] => 0
  | c :: cs => Tree.size c + Tree.sizeList cs

end

/-- Tag name of an element. -/
def Tree.tag : Tree → String
  | .node tg _ _ _ => tg

/-- Attribute mapping of an element. -/
def Tree.attrib : Tree → List (String × String)
  | .node _ a _ _ => a

/-- Raw (unstripped) text content of an element. -/
def Tree.rawText : Tree → Option String
  | .node _ _ x _ => x

/-- Ordered child elements. -/
def Tree.children : Tree → List Tree
  | .node _ _ _ cs => cs

/-- The fixed ignored-tag set `IGNORED_TAGS` of the source. -/
def IGNORED_TAGS : List String :=
  ["AnchorTime", "GroupedTracksRevealed", "IsContentSelected", "NoteEditorFoldInZoom",
   "NoteEditorFoldInScroll", "OtherTime", "SelectedDevice", "SelectedEnvelope", "TrackUnfolded",
   "ClientSize", "HighlightedTrackIndex", "ViewStateDetailIsSample", "CurrentTime",
   "LastSelectedTimeableIndex", "GridIntervalPixel", "CurrentZoom", "ViewStateSessionMixerHeight"]

/-- The whitespace characters stripped by `text.strip(" \n\r\t")`. -/
def isWS (c : Char) : Bool :=
  c == ' ' || c == '\n' || c == '\r' || c == '\t'

/-- Strip the whitespace characters of `isWS` from both ends of a string,
as Python's `str.strip(" \n\r\t")` does. -/
def stripWS (s : String) : String :=
  String.mk (((s.data.dropWhile isWS).reverse.dropWhile isWS).reverse)

/-- The `text` property of `GenericNode`: the stripped text, or absent when
the raw text is absent or strips to the empty string. -/
def Tree.text (t : Tree) : Option String :=
  match t.rawText with
  | none => none
  | some s => let s2 := stripWS s; if s2 = "" then none else some s2

/-- Dictionary equality of two attribute mappings (`attrib == attrib` in
the source compares the attribute dictionaries by key/value content,
ignoring order). -/
def dictEq (a b : List (String × String)) : Bool :=
  a.all (fun kv => decide (List.lookup kv.1 b = some kv.2)) &&
    b.all (fun kv => decide (List.lookup kv.1 a = some kv.2))

/-- The `attributes.pop("Value")` step of the time-value comparison:
the value bound to the key `Value` together with the remaining mapping,
or `none` (a `KeyError`) when the key is absent. -/
def popValue (a : List (String × String)) : Option (String × List (String × String)) :=
  match List.lookup "Value" a with
  | none => none
  | some v => some (v, a.filter (fun kv => !(kv.1 == "Value")))

/-- Numeric value of a list of decimal digit characters. -/
def digitsVal (cs : List Char) : Nat :=
  cs.foldl (fun acc c => acc * 10 + (c.toNat - '0'.toNat)) 0

/-- Parse a plain decimal string (optional sign, digits, at most one dot;
no exponent form) into `(unscaled integer, scale)`, the exact value being
`unscaled / 10 ^ scale`.  `none` models the `InvalidOperation` raised by
`Decimal(...)` on a malformed string. -/
def parseDec (s : String) : Option (Int × Nat) :=
  let signed : Bool × List Char :=
    match s.data with
    | '-' :: r => (true, r)
    | '+' :: r => (false, r)
    | r => (false, r)
  let mk : Nat → Nat → Option (Int × Nat) := fun v sc =>
    some (if signed.1 then -(v : Int) else (v : Int), sc)
  match signed.2.splitOn '.' with
  | [d] => if d ≠ [] ∧ d.all Char.isDigit then mk (digitsVal d) 0 else none
  | [d, f] =>
      if (d ++ f) ≠ [] ∧ (d ++ f).all Char.isDigit then
        mk (digitsVal (d ++ f)) f.length
      else none
  | _ => none

/-- Division of `m` by `d` rounded to the nearest integer with ties going
to the even quotient (the `ROUND_HALF_EVEN` default used by
`Decimal.quantize`). -/
def halfEvenDiv (m d : Nat) : Nat :=
  let q := m / d
  let r := m % d
  if 2 * r < d then q
  else if d < 2 * r then q + 1
  else if q % 2 = 0 then q else q + 1

/-- The value of `(i, s)` rounded half-even to two fractional digits,
expressed in hundredths. -/
def quantizeHE (v : Int × Nat) : Int :=
  if v.2 ≤ 2 then v.1 * (10 : Int) ^ (2 - v.2)
  else
    let d := (10 : Nat) ^ (v.2 - 2)
    let qm := halfEvenDiv v.1.natAbs d
    if v.1 < 0 then -(qm : Int) else (qm : Int)

/-- `Decimal(value).quantize(Decimal(".01"))`: round half-even to two
fractional digits, failing with `InvalidOperation` when the resulting
coefficient exceeds the default 28-digit context precision. -/
def quantizeE (v : Int × Nat) : Except DiffError Int :=
  let q := quantizeHE v
  if q.natAbs < 10 ^ 28 then .ok q else .error .invalidOperation

/-- The exact rational value denoted by a parsed decimal. -/
def ratOfDec (v : Int × Nat) : ℚ :=
  (v.1 : ℚ) / (10 : ℚ) ^ v.2

/-- The xpath lookup `node.xpath("MidiKey/@Value")` followed by `[0]`:
the `Value` attribute of the first direct `MidiKey` child carrying one,
or `none` (an `IndexError`) when no such child exists. -/
def midiKey (t : Tree) : Option String :=
  (t.children.filterMap fun c =>
    if c.tag == "MidiKey" then List.lookup "Value" c.attrib else none).head?

/-- `GenericNode.shallow_equal`: tag, attribute dictionary and stripped
text all equal. -/
def GenericNode.shallow_equal (t u : Tree) : Bool :=
  decide (t.tag = u.tag) && dictEq t.attrib u.attrib && decide (t.text = u.text)

/-- `LeftTime.shallow_equal` (also used for `RightTime`): when tag and text
match, pop the `Value` attribute from both sides, compare it as a decimal
quantized to two fractional digits, and compare the remaining attributes as
dictionaries.  A missing `Value` key is a `KeyError` and an unparseable
value an `InvalidOperation`, raised for the left side first. -/
def LeftTime.shallow_equal (t u : Tree) : Except DiffError Bool :=
  if decide (t.tag = u.tag) && decide (t.text = u.text) then
    match popValue t.attrib with
    | none => .error .keyError
    | some (v, ra) =>
      match parseDec v with
      | none => .error .invalidOperation
      | some dv =>
        match quantizeE dv with
        | .error e => .error e
        | .ok qv =>
          match popValue u.attrib with
          | none => .error .keyError
          | some (w, rb) =>
            match parseDec w with
            | none => .error .invalidOperation
            | some dw =>
              match quantizeE dw with
              | .error e => .error e
              | .ok qw => .ok (decide (qv = qw) && dictEq ra rb)
  else .ok false

/-- `KeyTrack.shallow_equal`: look up `MidiKey/@Value` on both sides (an
absent lookup is an `IndexError`, left side first), then require generic
shallow equality together with equal key values. -/
def KeyTrack.shallow_equal (t u : Tree) : Except DiffError Bool :=
  match midiKey t with
  | none => .error .indexError
  | some v =>
    match midiKey u with
    | none => .error .indexError
    | some w => .ok (GenericNode.shallow_equal t u && decide (v = w))

/-- The registry dispatch of `shallow_equal`: the wrapper class is selected
by the tag of the left-hand node; `LeftTime`/`RightTime` use the quantized
time comparison, `KeyTrack` adds the `MidiKey` lookup, and every other tag
(including `MidiClip`, `AudioClip`, `MidiTrack`, `GroupTrack` and `Scene`,
which only specialize `describe`) uses the generic comparison. -/
def shallow_equal (t u : Tree) : Except DiffError Bool :=
  if t.tag == "LeftTime" || t.tag == "RightTime" then LeftTime.shallow_equal t u
  else if t.tag == "KeyTrack" then KeyTrack.shallow_equal t u
  else .ok (GenericNode.shallow_equal t u)

/-- Whether `node_factory` produces a wrapper for an element: exactly the
elements whose tag is not in the ignored-tag set. -/
def keep (c : Tree) : Bool :=
  !(IGNORED_TAGS.contains c.tag)

/-- `iter_children` composed with `node_factory`: the ordered children with
ignored-tag children excluded. -/
def iter_children (t : Tree) : List Tree :=
  t.children.filter keep

/-- A tentative record collected by the alignment loop before the recursive
post-pass: `('added', n)`, `('removed', o)` or `('unchanged', o, n)`. -/
inductive PreChange where
  | added (n : Tree)
  | removed (o : Tree)
  | unchanged (o n : Tree)
deriving DecidableEq

instance {ε α : Type} [DecidableEq ε] [DecidableEq α] : DecidableEq (Except ε α) :=
  fun a b =>
    match a, b with
    | .ok x, .ok y =>
      if h : x = y then isTrue (by rw [h]) else isFalse (fun hh => h (by injection hh))
    | .error x, .error y =>
      if h : x = y then isTrue (by rw [h]) else isFalse (fun hh => h (by injection hh))
    | .ok _, .error _ => isFalse (fun hh => Except.noConfusion hh)
    | .error _, .ok _ => isFalse (fun hh => Except.noConfusion hh)

/-- A final change record: `('added', n)`, `('removed', o)` or
`('changed', n, nested)` where `n` is the new version of the node. -/
inductive Change where
  | added (n : Tree)
  | removed (o : Tree)
  | changed (n : Tree) (nested : List Change)

mutual

/-- Decidable equality of change records. -/
def Change.decEq : (c d : Change) → Decidable (c = d)
  | .added a, .added b =>
    if h : a = b then isTrue (by rw [h]) else isFalse (fun hh => h (by injection hh))
  | .removed a, .removed b =>
    if h : a = b then isTrue (by rw [h]) else isFalse (fun hh => h (by injection hh))
  | .changed a as, .changed b bs =>
    if h : a = b then
      match Change.decEqList as bs with
      | isTrue h2 => isTrue (by rw [h, h2])
      | isFalse h2 => isFalse (fun hh => h2 (by injection hh))
    else isFalse (fun hh => h (by injection hh))
  | .added _, .removed _ => isFalse (fun hh => Change.noConfusion hh)
  | .added _, .changed _ _ => isFalse (fun hh => Change.noConfusion hh)
  | .removed _, .added _ => isFalse (fun hh => Change.noConfusion hh)
  | .removed _, .changed _ _ => isFalse (fun hh => Change.noConfusion hh)
  | .changed _ _, .added _ => isFalse (fun hh => Change.noConfusion hh)
  | .changed _ _, .removed _ => isFalse (fun hh => Change.noConfusion hh)

/-- Decidable equality of change record lists. -/
def Change.decEqList : (cs ds : List Change) → Decidable (cs = ds)
  | [], [] => isTrue rfl
  | [], _ :: _ => isFalse (fun h => List.noConfusion h)
  | _ :: _, [] => isFalse (fun h => List.noConfusion h)
  | a :: as, b :: bs =>
    match Change.decEq a b, Change.decEqList as bs with
    | isTrue h1, isTrue h2 => isTrue (by rw [h1, h2])
    | isFalse h1, _ => isFalse (fun h => h1 (by injection h))
    | _, isFalse h2 => isFalse (fun h => h2 (by injection h))

end

instance : DecidableEq Change := Change.decEq

/-- The forward lookahead scan of the mismatch branch: the index of the
first element of the remaining new children that shallow-equals `o`, or
`none` when the scan exhausts the list.  Equality errors propagate from the
first failing comparison. -/
def scanE (eq : Tree → Tree → Except DiffError Bool) (o : Tree) :
    List Tree → Except DiffError (Option Nat)
  | [] => .ok none
  | n :: ns =>
    match eq o n with
    | .error e => .error e
    | .ok true => .ok (some 0)
    | .ok false =>
      match scanE eq o ns with
      | .error e => .error e
      | .ok none => .ok none
      | .ok (some k) => .ok (some (k + 1))

/-- The outer alignment loop of `recurse_diff`, one level deep: walk the
two child lists with two cursors.  An exhausted old side drains the new
side as `added`; an exhausted new side emits `removed` and advances only
the old cursor; equal heads record an `unchanged` pair and advance both;
on a mismatch the lookahead scan either commits the skipped new children
(the mismatching head included) as `added` and resumes past the match, or
commits `removed` for the old head and restores the new cursor to the
position before the scan. -/
def align (eq : Tree → Tree → Except DiffError Bool) :
    List Tree → List Tree → Except DiffError (List PreChange)
  | [], news => .ok (news.map .added)
  | o :: os, [] =>
    match align eq os [] with
    | .error e => .error e
    | .ok rest => .ok (.removed o :: rest)
  | o :: os, n :: ns =>
    match eq o n with
    | .error e => .error e
    | .ok true =>
      match align eq os ns with
      | .error e => .error e
      | .ok rest => .ok (.unchanged o n :: rest)
    | .ok false =>
      match scanE eq o ns with
      | .error e => .error e
      | .ok none =>
        match align eq os (n :: ns) with
        | .error e => .error e
        | .ok rest => .ok (.removed o :: rest)
      | .ok (some k) =>
        match align eq os (ns.drop (k + 1)) with
        | .error e => .error e
        | .ok rest => .ok (.added n :: (ns.take k).map .added ++ rest)

/-- The post-pass of `recurse_diff` over the collected records:
`added`/`removed` pass through unchanged; each `unchanged` pair is
recursively diffed by `d`, producing a `changed` record exactly when the
nested list is non-empty. -/
def processList (d : Tree → Tree → Except DiffError (List Change)) :
    List PreChange → Except DiffError (List Change)
  | [] => .ok []
  | .added n :: rest =>
    match processList d rest with
    | .error e => .error e
    | .ok tail => .ok (.added n :: tail)
  | .removed o :: rest =>
    match processList d rest with
    | .error e => .error e
    | .ok tail => .ok (.removed o :: tail)
  | .unchanged o n :: rest =>
    match d o n with
    | .error e => .error e
    | .ok cs =>
      match processList d rest with
      | .error e => .error e
      | .ok tail => .ok (if cs = [] then tail else .changed n cs :: tail)

/-- Fuel-indexed form of `recurse_diff`; the fuel only serves to make the
recursion structural and is irrelevant once it dominates the height of the
old tree (`diffF_congr`). -/
def diffF : Nat → Tree → Tree → Except DiffError (List Change)
  | 0, _, _ => .ok []
  | fuel + 1, t, u =>
    match align shallow_equal (iter_children t) (iter_children u) with
    | .error e => .error e
    | .ok pcs => processList (diffF fuel) pcs

/-- `recurse_diff`: align the filtered child sequences of the two nodes,
then run the recursive post-pass. -/
def recurse_diff (t u : Tree) : Except DiffError (List Change) :=
  diffF (Tree.size t) t u

/-- The per-node input contract assumed by the source: attribute keys are
pairwise distinct (they come from a dictionary), every `LeftTime` or
`RightTime` element carries a `Value` attribute that parses and quantizes
as a decimal, and every `KeyTrack` element has a `MidiKey/@Value` lookup
result. -/
def wfNode (t : Tree) : Bool :=
  decide ((t.attrib.map Prod.fst).Nodup) &&
    (if t.tag == "LeftTime" || t.tag == "RightTime" then
      match popValue t.attrib with
      | none => false
      | some (v, _) =>
        match parseDec v with
        | none => false
        | some dv =>
          match quantizeE dv with
          | .ok _ => true
          | .error _ => false
    else true) &&
    (if t.tag == "KeyTrack" then (midiKey t).isSome else true)

mutual

/-- The input contract of `wfNode`, required of every element of a tree. -/
def wf : Tree → Bool
  | .node tg a x cs => wfNode (.node tg a x cs) && wfList cs

/-- The input contract, required of every element of a list of trees. -/
def wfList : List Tree → Bool
  | [] => true
  | c :: cs => wf c && wfList cs

end

mutual

/-- Erase every ignored-tag element from a tree, at every depth.  Two trees
with the same `strip` image are indistinguishable to the diff. -/
def strip : Tree → Tree
  | .node tg a x cs => .node tg a x (stripList cs)

/-- Erase every ignored-tag element from a list of trees, recursively. -/
def stripList : List Tree → List Tree
  | [] => []
  | c :: cs => if keep c then strip c :: stripList cs else stripList cs

end

mutual

/-- Apply `strip` to every tree referenced from a change record. -/
def changeStrip : Change → Change
  | .added n => .added (strip n)
  | .removed o => .removed (strip o)
  | .changed n cs => .changed (strip n) (changeStripList cs)

/-- Apply `strip` to every tree referenced from a list of change
records. -/
def changeStripList : List Change → List Change
  | [] => []
  | c :: cs => changeStrip c :: changeStripList cs

end

mutual

/-- Every node referenced from a change record, at any nesting depth, has a
non-ignored tag. -/
def changeOK : Change → Bool
  | .added n => keep n
  | .removed o => keep o
  | .changed n cs => keep n && changeOKList cs

/-- `changeOK` over a list of change records. -/
def changeOKList : List Change → Bool
  | [] => true
  | c :: cs => changeOK c && changeOKList cs

end

/-- A single edit touching only an ignored-tag node: insertion of an
ignored-tag child somewhere in the tree, removal of one, or replacement of
one by another ignored-tag node (covering any mutation of its attributes,
text or descendants). -/
inductive IgnoredEdit : Tree → Tree → Prop where
  | insert (tg : String) (a : List (String × String)) (x : Option String)
      (c1 c2 : List Tree) (g : Tree) (hg : g.tag ∈ IGNORED_TAGS) :
      IgnoredEdit (.node tg a x (c1 ++ c2)) (.node tg a x (c1 ++ g :: c2))
  | remove (tg : String) (a : List (String × String)) (x : Option String)
      (c1 c2 : List Tree) (g : Tree) (hg : g.tag ∈ IGNORED_TAGS) :
      IgnoredEdit (.node tg a x (c1 ++ g :: c2)) (.node tg a x (c1 ++ c2))
  | mutate (tg : String) (a : List (String × String)) (x : Option String)
      (c1 c2 : List Tree) (g g2 : Tree) (hg : g.tag ∈ IGNORED_TAGS)
      (hg2 : g2.tag ∈ IGNORED_TAGS) :
      IgnoredEdit (.node tg a x (c1 ++ g :: c2)) (.node tg a x (c1 ++ g2 :: c2))
  | child (tg : String) (a : List (String × String)) (x : Option String)
      (c1 c2 : List Tree) (c c2t : Tree) (h : IgnoredEdit c c2t) :
      IgnoredEdit (.node tg a x (c1 ++ c :: c2)) (.node tg a x (c1 ++ c2t :: c2))

/-- Either no edit at all, or a single ignored-tag edit in one direction. -/
def IgnoredEditOpt (t t2 : Tree) : Prop :=
  t2 = t ∨ IgnoredEdit t t2 ∨ IgnoredEdit t2 t

/-- Number of outer-loop iterations performed by the alignment loop of
`recurse_diff`, mirroring the branch structure of `align` (the final
iteration that merely observes both cursors exhausted and breaks is not
counted). -/
def alignSteps (eq : Tree → Tree → Except DiffError Bool) :
    List Tree → List Tree → Except DiffError Nat
  | [], news => .ok news.length
  | _ :: os, [] =>
    match alignSteps eq os [] with
    | .error e => .error e
    | .ok k => .ok (k + 1)
  | o :: os, n :: ns =>
    match eq o n with
    | .error e => .error e
    | .ok true =>
      match alignSteps eq os ns with
      | .error e => .error e
      | .ok k => .ok (k + 1)
    | .ok false =>
      match scanE eq o ns with
      | .error e => .error e
      | .ok none =>
        match alignSteps eq os (n :: ns) with
        | .error e => .error e
        | .ok k => .ok (k + 1)
      | .ok (some k) =>
        match alignSteps eq os (ns.drop (k + 1)) with
        | .error e => .error e
        | .ok k2 => .ok (k2 + 1)

/-- Modelled from the spec: the alignment loop exactly as claim C1 words
it, in which the match-found branch of the lookahead advances the new
cursor just past the matched element but leaves the old cursor unchanged,
so that the same old child is compared against the element after the
match on the next iteration.  All other branches are those of `align`.
Fuel-indexed to make the recursion structural. -/
def alignSpecC1F (eq : Tree → Tree → Except DiffError Bool) :
    Nat → List Tree → List Tree → Except DiffError (List PreChange)
  | 0, _, _ => .ok []
  | _ + 1, [], news => .ok (news.map .added)
  | fuel + 1, o :: os, [] =>
    match alignSpecC1F eq fuel os [] with
    | .error e => .error e
    | .ok rest => .ok (.removed o :: rest)
  | fuel + 1, o :: os, n :: ns =>
    match eq o n with
    | .error e => .error e
    | .ok true =>
      match alignSpecC1F eq fuel os ns with
      | .error e => .error e
      | .ok rest => .ok (.unchanged o n :: rest)
    | .ok false =>
      match scanE eq o ns with
      | .error e => .error e
      | .ok none =>
        match alignSpecC1F eq fuel os (n :: ns) with
        | .error e => .error e
        | .ok rest => .ok (.removed o :: rest)
      | .ok (some k) =>
        match alignSpecC1F eq fuel (o :: os) (ns.drop (k + 1)) with
        | .error e => .error e
        | .ok rest => .ok (.added n :: (ns.take k).map .added ++ rest)

/-- Modelled from the spec: claim C1's alignment loop, with enough fuel for
its combined-length termination argument. -/
def alignSpecC1 (eq : Tree → Tree → Except DiffError Bool)
    (olds news : List Tree) : Except DiffError (List PreChange) :=
  alignSpecC1F eq (olds.length + news.length + 1) olds news

/-- Apply `strip` to every tree referenced from a tentative record. -/
def preStrip : PreChange → PreChange
  | .added n => .added (strip n)
  | .removed o => .removed (strip o)
  | .unchanged o n => .unchanged (strip o) (strip n)

section Sanity

/-- A leaf with only a tag. -/
def leaf (tg : String) : Tree := .node tg [] none []

example : GenericNode.shallow_equal (leaf "A") (leaf "A") = true := by decide

example : shallow_equal (leaf "A") (leaf "B") = .ok false := by decide

example :
    recurse_diff (.node "r" [] none [leaf "A", leaf "B"])
      (.node "r" [] none [leaf "B", leaf "A"]) =
      .ok [.added (leaf "B"), .removed (leaf "B")] := by decide

example :
    recurse_diff (.node "r" [] none [leaf "X"]) (.node "r" [] none [leaf "Y"]) =
      .ok [.removed (leaf "X"), .added (leaf "Y")] := by decide

example : parseDec "0.1249" = some (1249, 4) := by decide

example : quantizeE (1249, 4) = .ok 12 ∧ quantizeE (1251, 4) = .ok 13 := by decide

example : quantizeE (115, 3) = .ok 12 ∧ quantizeE (125, 3) = .ok 12 := by decide

end Sanity

/-! Infrastructure lemmas about the size measure, the alignment loop and
the fuel-indexed recursion. -/

theorem Tree.size_pos (t : Tree) : 0 < t.size := by
  cases t with
  | node tg a x cs => simp only [Tree.size]; omega

theorem Tree.size_le_of_mem {c : Tree} {cs : List Tree} (h : c ∈ cs) :
    c.size ≤ Tree.sizeList cs := by
  induction cs with
  | nil => cases h
  | cons d ds ih =>
    rcases List.mem_cons.mp h with h1 | h1
    · subst h1; simp only [Tree.sizeList]; omega
    · have := ih h1; simp only [Tree.sizeList]; omega

theorem Tree.size_lt_of_mem_children {c t : Tree} (h : c ∈ t.children) :
    c.size < t.size := by
  cases t with
  | node tg a x cs =>
    have hmem : c ∈ cs := by simpa [Tree.children] using h
    have := Tree.size_le_of_mem hmem
    simp only [Tree.size]; omega

theorem mem_children_of_mem_iter {c t : Tree} (h : c ∈ iter_children t) :
    c ∈ t.children :=
  List.mem_of_mem_filter h

theorem align_unchanged_mem {eq : Tree → Tree → Except DiffError Bool}
    {olds news : List Tree} {pcs : List PreChange} {a b : Tree}
    (h : align eq olds news = .ok pcs) (hm : PreChange.unchanged a b ∈ pcs) :
    a ∈ olds ∧ b ∈ news := by
  induction olds generalizing news pcs with
  | nil =>
    simp only [align, Except.ok.injEq] at h
    subst h
    rcases List.mem_map.mp hm with ⟨n, _, hn⟩
    cases hn
  | cons o os ih =>
    cases news with
    | nil =>
      simp only [align] at h
      cases halign : align eq os [] with
      | error e => rw [halign] at h; cases h
      | ok rest =>
        rw [halign] at h
        cases h
        rcases List.mem_cons.mp hm with h1 | h1
        · cases h1
        · have := ih halign h1
          exact ⟨List.mem_cons_of_mem _ this.1, this.2⟩
    | cons n ns =>
      cases heq : eq o n with
      | error e => simp only [align, heq] at h; exact Except.noConfusion h
      | ok bv =>
        cases bv with
        | true =>
          cases halign : align eq os ns with
          | error e => simp only [align, heq, halign] at h; exact Except.noConfusion h
          | ok rest =>
            simp only [align, heq, halign, Except.ok.injEq] at h
            subst h
            rcases List.mem_cons.mp hm with h1 | h1
            · cases h1; exact ⟨List.mem_cons_self .., List.mem_cons_self ..⟩
            · have := ih halign h1
              exact ⟨List.mem_cons_of_mem _ this.1, List.mem_cons_of_mem _ this.2⟩
        | false =>
          cases hscan : scanE eq o ns with
          | error e => simp only [align, heq, hscan] at h; exact Except.noConfusion h
          | ok res =>
            cases res with
            | none =>
              cases halign : align eq os (n :: ns) with
              | error e => simp only [align, heq, hscan, halign] at h; exact Except.noConfusion h
              | ok rest =>
                simp only [align, heq, hscan, halign, Except.ok.injEq] at h
                subst h
                rcases List.mem_cons.mp hm with h1 | h1
                · cases h1
                · have := ih halign h1
                  exact ⟨List.mem_cons_of_mem _ this.1, this.2⟩
            | some k =>
              cases halign : align eq os (ns.drop (k + 1)) with
              | error e => simp only [align, heq, hscan, halign] at h; exact Except.noConfusion h
              | ok rest =>
                simp only [align, heq, hscan, halign, Except.ok.injEq] at h
                subst h
                rcases List.mem_cons.mp hm with h1 | h1
                · cases h1
                · rcases List.mem_append.mp h1 with h2 | h2
                  · rcases List.mem_map.mp h2 with ⟨m, _, hmm⟩; cases hmm
                  · have := ih halign h2
                    refine ⟨List.mem_cons_of_mem _ this.1, List.mem_cons_of_mem _ ?_⟩
                    exact List.drop_subset _ _ this.2

theorem processList_congr {d d2 : Tree → Tree → Except DiffError (List Change)}
    {pcs : List PreChange}
    (h : ∀ a b, PreChange.unchanged a b ∈ pcs → d a b = d2 a b) :
    processList d pcs = processList d2 pcs := by
  induction pcs with
  | nil => rfl
  | cons pc rest ih =>
    have hrest : processList d rest = processList d2 rest :=
      ih fun a b hm => h a b (List.mem_cons_of_mem _ hm)
    cases pc with
    | added n => simp only [processList, hrest]
    | removed o => simp only [processList, hrest]
    | unchanged o n =>
      have hd : d o n = d2 o n := h o n (List.mem_cons_self ..)
      simp only [processList, hd, hrest]

theorem diffF_congr :
    ∀ (f1 f2 : Nat) (t u : Tree), t.size ≤ f1 → t.size ≤ f2 →
      diffF f1 t u = diffF f2 t u := by
  intro f1
  induction f1 with
  | zero => intro f2 t u h1 _; exact absurd h1 (by have := Tree.size_pos t; omega)
  | succ f ih =>
    intro f2 t u h1 h2
    cases f2 with
    | zero => exact absurd h2 (by have := Tree.size_pos t; omega)
    | succ f2 =>
      simp only [diffF]
      cases halign : align shallow_equal (iter_children t) (iter_children u) with
      | error e => rfl
      | ok pcs =>
        refine processList_congr fun a b hm => ?_
        have hmem : a ∈ iter_children t := (align_unchanged_mem halign hm).1
        have hlt : a.size < t.size :=
          Tree.size_lt_of_mem_children (mem_children_of_mem_iter hmem)
        exact ih f2 a b (by omega) (by omega)

theorem recurse_diff_unfold (t u : Tree) :
    recurse_diff t u =
      match align shallow_equal (iter_children t) (iter_children u) with
      | .error e => .error e
      | .ok pcs => processList recurse_diff pcs := by
  obtain ⟨f, hf⟩ : ∃ f, t.size = f + 1 :=
    ⟨t.size - 1, by have := Tree.size_pos t; omega⟩
  rw [recurse_diff, hf]
  simp only [diffF]
  cases halign : align shallow_equal (iter_children t) (iter_children u) with
  | error e => rfl
  | ok pcs =>
    refine processList_congr fun a b hm => ?_
    have hmem : a ∈ iter_children t := (align_unchanged_mem halign hm).1
    have hlt : a.size < t.size :=
      Tree.size_lt_of_mem_children (mem_children_of_mem_iter hmem)
    exact diffF_congr f a.size a b (by omega) (le_refl _)

/-! Claims C1, C2, C8 and C10: branch behaviour and termination of the
alignment loop. -/

/-- C1 (counterexample).  The claim states that in the match-found branch
the old cursor remains unchanged, so that the same old child is compared
against the element after the match on the next iteration; `alignSpecC1`
implements exactly that reading.  On old `[A]`, new `[B, A]` it would emit
`[Added B, Removed A]` (the old child `A`, still pending, meets an
exhausted new sequence), while the source's loop emits `[Added B]`,
consuming the old child together with the matched new child.  The two
disagree, so the claim is false of the code. -/
theorem c1_counterexample :
    alignSpecC1 shallow_equal [leaf "A"] [leaf "B", leaf "A"] =
        .ok [.added (leaf "B"), .removed (leaf "A")] ∧
      align shallow_equal [leaf "A"] [leaf "B", leaf "A"] = .ok [.added (leaf "B")] ∧
      alignSpecC1 shallow_equal [leaf "A"] [leaf "B", leaf "A"] ≠
        align shallow_equal [leaf "A"] [leaf "B", leaf "A"] :=
  ⟨by decide, by decide, by decide⟩

/-- C1 (amended).  When a mismatch is resolved by a forward lookahead match
at offset `k`, the loop commits the mismatching new head and the `k`
skipped new children as `Added`, advances the new cursor to just past the
matched element, and also consumes the current old child (the matched pair
produces no record): the continuation aligns the remaining old children
against the new children after the match. -/
theorem c1_match_found_branch (eq : Tree → Tree → Except DiffError Bool)
    (o n : Tree) (os ns : List Tree) (k : Nat)
    (h1 : eq o n = .ok false) (h2 : scanE eq o ns = .ok (some k)) :
    align eq (o :: os) (n :: ns) =
      match align eq os (ns.drop (k + 1)) with
      | .error e => .error e
      | .ok rest => .ok (.added n :: (ns.take k).map .added ++ rest) := by
  simp only [align, h1, h2]

/-- C1 (witness): the amended branch equation at a concrete input. -/
theorem c1_match_found_branch_witness :
    shallow_equal (leaf "A") (leaf "B") = .ok false ∧
      scanE shallow_equal (leaf "A") [leaf "A", leaf "C"] = .ok (some 0) ∧
      align shallow_equal [leaf "A"] [leaf "B", leaf "A", leaf "C"] =
        .ok [.added (leaf "B"), .added (leaf "C")] :=
  ⟨by decide, by decide,
    (c1_match_found_branch shallow_equal (leaf "A") (leaf "B") []
      [leaf "A", leaf "C"] 0 (by decide) (by decide)).trans (by decide)⟩

/-- C2.  When the lookahead scan exhausts the new sequence without a match,
the loop commits exactly one `Removed` for the old child, discards the
tentative additions, restores the new cursor to the position before the
scan (the mismatching new head included) and advances only the old cursor;
consequently old `[X]` against new `[Y]` with `X`, `Y` not shallow-equal
yields exactly `[Removed X, Added Y]` and no `Changed` record. -/
theorem c2_no_match_branch :
    (∀ (eq : Tree → Tree → Except DiffError Bool) (o n : Tree) (os ns : List Tree),
        eq o n = .ok false → scanE eq o ns = .ok none →
        align eq (o :: os) (n :: ns) =
          match align eq os (n :: ns) with
          | .error e => .error e
          | .ok rest => .ok (.removed o :: rest)) ∧
    (∀ t u x y : Tree, iter_children t = [x] → iter_children u = [y] →
        shallow_equal x y = .ok false →
        recurse_diff t u = .ok [.removed x, .added y]) := by
  constructor
  · intro eq o n os ns h1 h2
    simp only [align, h1, h2]
  · intro t u x y ht hu hxy
    rw [recurse_diff_unfold, ht, hu]
    have hs : scanE shallow_equal x ([] : List Tree) = .ok none := rfl
    simp [align, hxy, hs, processList]

/-- C2 (witness): the unresolvable-mismatch scenario at a concrete
input. -/
theorem c2_no_match_branch_witness :
    iter_children (.node "r" [] none [leaf "X"]) = [leaf "X"] ∧
      iter_children (.node "r" [] none [leaf "Y"]) = [leaf "Y"] ∧
      shallow_equal (leaf "X") (leaf "Y") = .ok false ∧
      recurse_diff (.node "r" [] none [leaf "X"]) (.node "r" [] none [leaf "Y"]) =
        .ok [.removed (leaf "X"), .added (leaf "Y")] :=
  ⟨by decide, by decide, by decide,
    c2_no_match_branch.2 _ _ _ _ (by decide) (by decide) (by decide)⟩

/-- C8.  Every outer-loop iteration of the alignment strictly advances at
least one cursor, so the iteration count of a successful alignment is
bounded by the combined length of the two child sequences, and the count
is defined whenever the alignment itself succeeds. -/
theorem c8_alignment_bound :
    (∀ (eq : Tree → Tree → Except DiffError Bool) (olds news : List Tree) (k : Nat),
        alignSteps eq olds news = .ok k → k ≤ olds.length + news.length) ∧
    (∀ (eq : Tree → Tree → Except DiffError Bool) (olds news : List Tree)
        (pcs : List PreChange),
        align eq olds news = .ok pcs → ∃ k, alignSteps eq olds news = .ok k) := by
  constructor
  · intro eq olds
    induction olds with
    | nil => intro news k h; simp only [alignSteps, Except.ok.injEq] at h; omega
    | cons o os ih =>
      intro news k h
      cases news with
      | nil =>
        cases hsub : alignSteps eq os [] with
        | error e => simp only [alignSteps, hsub] at h; exact Except.noConfusion h
        | ok k2 =>
          simp only [alignSteps, hsub, Except.ok.injEq] at h
          have := ih [] k2 hsub
          simp only [List.length_cons, List.length_nil] at *
          omega
      | cons n ns =>
        cases heq : eq o n with
        | error e => simp only [alignSteps, heq] at h; exact Except.noConfusion h
        | ok bv =>
          cases bv with
          | true =>
            cases hsub : alignSteps eq os ns with
            | error e =>
              simp only [alignSteps, heq, hsub] at h
              exact Except.noConfusion h
            | ok k2 =>
              simp only [alignSteps, heq, hsub, Except.ok.injEq] at h
              have := ih ns k2 hsub
              simp only [List.length_cons] at *
              omega
          | false =>
            cases hscan : scanE eq o ns with
            | error e =>
              simp only [alignSteps, heq, hscan] at h
              exact Except.noConfusion h
            | ok res =>
              cases res with
              | none =>
                cases hsub : alignSteps eq os (n :: ns) with
                | error e =>
                  simp only [alignSteps, heq, hscan, hsub] at h
                  exact Except.noConfusion h
                | ok k2 =>
                  simp only [alignSteps, heq, hscan, hsub, Except.ok.injEq] at h
                  have := ih (n :: ns) k2 hsub
                  simp only [List.length_cons] at *
                  omega
              | some j =>
                cases hsub : alignSteps eq os (ns.drop (j + 1)) with
                | error e =>
                  simp only [alignSteps, heq, hscan, hsub] at h
                  exact Except.noConfusion h
                | ok k2 =>
                  simp only [alignSteps, heq, hscan, hsub, Except.ok.injEq] at h
                  have := ih (ns.drop (j + 1)) k2 hsub
                  simp only [List.length_cons, List.length_drop] at *
                  omega
  · intro eq olds
    induction olds with
    | nil => intro news pcs _; exact ⟨news.length, rfl⟩
    | cons o os ih =>
      intro news pcs h
      cases news with
      | nil =>
        cases hsub : align eq os [] with
        | error e => simp only [align, hsub] at h; exact Except.noConfusion h
        | ok rest =>
          obtain ⟨k, hk⟩ := ih [] rest hsub
          exact ⟨k + 1, by simp only [alignSteps, hk]⟩
      | cons n ns =>
        cases heq : eq o n with
        | error e => simp only [align, heq] at h; exact Except.noConfusion h
        | ok bv =>
          cases bv with
          | true =>
            cases hsub : align eq os ns with
            | error e =>
              simp only [align, heq, hsub] at h
              exact Except.noConfusion h
            | ok rest =>
              obtain ⟨k, hk⟩ := ih ns rest hsub
              exact ⟨k + 1, by simp only [alignSteps, heq, hk]⟩
          | false =>
            cases hscan : scanE eq o ns with
            | error e =>
              simp only [align, heq, hscan] at h
              exact Except.noConfusion h
            | ok res =>
              cases res with
              | none =>
                cases hsub : align eq os (n :: ns) with
                | error e =>
                  simp only [align, heq, hscan, hsub] at h
                  exact Except.noConfusion h
                | ok rest =>
                  obtain ⟨k, hk⟩ := ih (n :: ns) rest hsub
                  exact ⟨k + 1, by simp only [alignSteps, heq, hscan, hk]⟩
              | some j =>
                cases hsub : align eq os (ns.drop (j + 1)) with
                | error e =>
                  simp only [align, heq, hscan, hsub] at h
                  exact Except.noConfusion h
                | ok rest =>
                  obtain ⟨k, hk⟩ := ih (ns.drop (j + 1)) rest hsub
                  exact ⟨k + 1, by simp only [alignSteps, heq, hscan, hk]⟩

/-- C8 (witness): the iteration bound at a concrete input. -/
theorem c8_alignment_bound_witness :
    alignSteps shallow_equal [leaf "A"] [leaf "B"] = .ok 2 ∧
      2 ≤ [leaf "A"].length + [leaf "B"].length :=
  ⟨by decide, c8_alignment_bound.1 shallow_equal [leaf "A"] [leaf "B"] 2 (by decide)⟩

/-- C10.  When the mismatching old child shallow-equals a later new child,
the pair is consumed together without ever being recorded, so the output
contains no record of any kind for it: with old children `[o]` and new
children `[n, m]`, `o` not equal to `n` but equal to `m`, the whole diff is
exactly `[Added n]`, whatever the children of `o` and `m` are — nested
differences between them are silently dropped. -/
theorem c10_lookahead_pair_dropped (t u o n m : Tree)
    (ht : iter_children t = [o]) (hu : iter_children u = [n, m])
    (h1 : shallow_equal o n = .ok false) (h2 : shallow_equal o m = .ok true) :
    recurse_diff t u = .ok [.added n] := by
  rw [recurse_diff_unfold, ht, hu]
  have hs : scanE shallow_equal o [m] = .ok (some 0) := by simp only [scanE, h2]
  simp [align, h1, hs, processList]

/-- C10 (witness): a concrete lookahead-matched pair whose own recursive
diff is non-empty, yet which leaves no trace in the output. -/
theorem c10_lookahead_pair_dropped_witness :
    recurse_diff (.node "P" [] none [leaf "x"]) (.node "P" [] none [leaf "y"]) ≠
        .ok [] ∧
      recurse_diff (.node "r" [] none [.node "P" [] none [leaf "x"]])
          (.node "r" [] none [leaf "B", .node "P" [] none [leaf "y"]]) =
        .ok [.added (leaf "B")] :=
  ⟨by decide,
    c10_lookahead_pair_dropped
      (.node "r" [] none [.node "P" [] none [leaf "x"]])
      (.node "r" [] none [leaf "B", .node "P" [] none [leaf "y"]])
      (.node "P" [] none [leaf "x"]) (leaf "B") (.node "P" [] none [leaf "y"])
      (by decide) (by decide) (by decide) (by decide)⟩

/-! Claim C4: behaviour of the diff under swapping its two inputs. -/

theorem dictEq_comm (a b : List (String × String)) : dictEq a b = dictEq b a := by
  simp only [dictEq]
  exact Bool.and_comm ..

theorem GenericNode.shallow_equal_elim {a b : Tree}
    (h : GenericNode.shallow_equal a b = true) :
    a.tag = b.tag ∧ dictEq a.attrib b.attrib = true ∧ a.text = b.text := by
  simpa [GenericNode.shallow_equal, Bool.and_eq_true, decide_eq_true_eq,
    and_assoc] using h

theorem GenericNode.shallow_equal_comm (a b : Tree) :
    GenericNode.shallow_equal a b = GenericNode.shallow_equal b a := by
  simp only [GenericNode.shallow_equal]
  rw [decide_eq_decide.mpr (eq_comm (a := a.tag)),
    decide_eq_decide.mpr (eq_comm (a := a.text)), dictEq_comm]

theorem shallow_equal_symm_true {a b : Tree}
    (h : shallow_equal a b = .ok true) : shallow_equal b a = .ok true := by
  unfold shallow_equal at h ⊢
  by_cases h1 : (a.tag == "LeftTime" || a.tag == "RightTime") = true
  · rw [if_pos h1] at h
    unfold LeftTime.shallow_equal at h
    by_cases hc : (decide (a.tag = b.tag) && decide (a.text = b.text)) = true
    · rw [if_pos hc] at h
      obtain ⟨htag, htext⟩ :
          a.tag = b.tag ∧ a.text = b.text := by
        simpa [Bool.and_eq_true, decide_eq_true_eq] using hc
      cases hpa : popValue a.attrib with
      | none => simp only [hpa] at h; exact Except.noConfusion h
      | some pa =>
        obtain ⟨v, ra⟩ := pa
        cases hdv : parseDec v with
        | none => simp only [hpa, hdv] at h; exact Except.noConfusion h
        | some dv =>
          cases hqv : quantizeE dv with
          | error e => simp only [hpa, hdv, hqv] at h; exact Except.noConfusion h
          | ok qv =>
            cases hpb : popValue b.attrib with
            | none =>
              simp only [hpa, hdv, hqv, hpb] at h
              exact Except.noConfusion h
            | some pb =>
              obtain ⟨w, rb⟩ := pb
              cases hdw : parseDec w with
              | none =>
                simp only [hpa, hdv, hqv, hpb, hdw] at h
                exact Except.noConfusion h
              | some dw =>
                cases hqw : quantizeE dw with
                | error e =>
                  simp only [hpa, hdv, hqv, hpb, hdw, hqw] at h
                  exact Except.noConfusion h
                | ok qw =>
                  simp only [hpa, hdv, hqv, hpb, hdw, hqw, Except.ok.injEq,
                    Bool.and_eq_true, decide_eq_true_eq] at h
                  rw [if_pos (by rw [htag] at h1; exact h1)]
                  unfold LeftTime.shallow_equal
                  rw [if_pos (by simp [← htag, ← htext])]
                  simp only [hpb, hdw, hqw, hpa, hdv, hqv, Except.ok.injEq,
                    Bool.and_eq_true, decide_eq_true_eq]
                  exact ⟨h.1.symm, by rw [dictEq_comm]; exact h.2⟩
    · rw [if_neg hc] at h
      simp only [Except.ok.injEq] at h
      exact Bool.noConfusion h
  · rw [if_neg h1] at h
    by_cases h2 : (a.tag == "KeyTrack") = true
    · rw [if_pos h2] at h
      unfold KeyTrack.shallow_equal at h
      cases hma : midiKey a with
      | none => simp only [hma] at h; exact Except.noConfusion h
      | some v =>
        cases hmb : midiKey b with
        | none => simp only [hma, hmb] at h; exact Except.noConfusion h
        | some w =>
          simp only [hma, hmb, Except.ok.injEq, Bool.and_eq_true,
            decide_eq_true_eq] at h
          have htag := (GenericNode.shallow_equal_elim h.1).1
          rw [if_neg (by rw [htag] at h1; exact h1),
            if_pos (by rw [htag] at h2; exact h2)]
          unfold KeyTrack.shallow_equal
          simp only [hmb, hma, Except.ok.injEq, Bool.and_eq_true,
            decide_eq_true_eq]
          exact ⟨by rw [GenericNode.shallow_equal_comm]; exact h.1, h.2.symm⟩
    · rw [if_neg h2] at h
      simp only [Except.ok.injEq] at h
      have htag := (GenericNode.shallow_equal_elim h).1
      rw [if_neg (by rw [htag] at h1; exact h1),
        if_neg (by rw [htag] at h2; exact h2)]
      simp only [Except.ok.injEq]
      rw [GenericNode.shallow_equal_comm]
      exact h

theorem align_of_forall₂ {eq : Tree → Tree → Except DiffError Bool}
    {olds news : List Tree}
    (h : List.Forall₂ (fun o n => eq o n = .ok true) olds news) :
    align eq olds news = .ok (List.zipWith PreChange.unchanged olds news) := by
  induction h with
  | nil => rfl
  | cons h1 _ ih =>
    simp only [align, h1, ih, List.zipWith_cons_cons]

theorem align_all_unchanged {eq : Tree → Tree → Except DiffError Bool}
    {olds news : List Tree} {pcs : List PreChange}
    (h : align eq olds news = .ok pcs)
    (hall : ∀ c ∈ pcs, ∃ a b, c = PreChange.unchanged a b) :
    List.Forall₂ (fun o n => eq o n = .ok true) olds news ∧
      pcs = List.zipWith PreChange.unchanged olds news := by
  induction olds generalizing news pcs with
  | nil =>
    simp only [align, Except.ok.injEq] at h
    subst h
    cases news with
    | nil => exact ⟨List.Forall₂.nil, rfl⟩
    | cons n ns =>
      obtain ⟨a, b, hab⟩ := hall (.added n) (by simp)
      cases hab
  | cons o os ih =>
    cases news with
    | nil =>
      cases hsub : align eq os [] with
      | error e => simp only [align, hsub] at h; exact Except.noConfusion h
      | ok rest =>
        simp only [align, hsub, Except.ok.injEq] at h
        subst h
        obtain ⟨a, b, hab⟩ := hall (.removed o) (by simp)
        cases hab
    | cons n ns =>
      cases heq : eq o n with
      | error e => simp only [align, heq] at h; exact Except.noConfusion h
      | ok bv =>
        cases bv with
        | false =>
          cases hscan : scanE eq o ns with
          | error e =>
            simp only [align, heq, hscan] at h
            exact Except.noConfusion h
          | ok res =>
            cases res with
            | none =>
              cases hsub : align eq os (n :: ns) with
              | error e =>
                simp only [align, heq, hscan, hsub] at h
                exact Except.noConfusion h
              | ok rest =>
                simp only [align, heq, hscan, hsub, Except.ok.injEq] at h
                subst h
                obtain ⟨a, b, hab⟩ := hall (.removed o) (by simp)
                cases hab
            | some k =>
              cases hsub : align eq os (ns.drop (k + 1)) with
              | error e =>
                simp only [align, heq, hscan, hsub] at h
                exact Except.noConfusion h
              | ok rest =>
                simp only [align, heq, hscan, hsub, Except.ok.injEq] at h
                subst h
                obtain ⟨a, b, hab⟩ := hall (.added n) (by simp)
                cases hab
        | true =>
          cases hsub : align eq os ns with
          | error e =>
            simp only [align, heq, hsub] at h
            exact Except.noConfusion h
          | ok rest =>
            simp only [align, heq, hsub, Except.ok.injEq] at h
            subst h
            have hrest := ih hsub fun c hc => hall c (List.mem_cons_of_mem _ hc)
            exact ⟨List.Forall₂.cons heq hrest.1,
              by rw [List.zipWith_cons_cons, hrest.2]⟩

theorem processList_eq_nil {d : Tree → Tree → Except DiffError (List Change)}
    {pcs : List PreChange} :
    processList d pcs = .ok [] ↔
      ∀ c ∈ pcs, ∃ a b, c = PreChange.unchanged a b ∧ d a b = .ok [] := by
  induction pcs with
  | nil => simp [processList]
  | cons pc rest ih =>
    cases pc with
    | added n =>
      constructor
      · intro h
        cases hr : processList d rest with
        | error e => simp only [processList, hr] at h; exact Except.noConfusion h
        | ok tail => simp only [processList, hr] at h; simp at h
      · intro h
        obtain ⟨a, b, hab, _⟩ := h (.added n) (by simp)
        cases hab
    | removed o =>
      constructor
      · intro h
        cases hr : processList d rest with
        | error e => simp only [processList, hr] at h; exact Except.noConfusion h
        | ok tail => simp only [processList, hr] at h; simp at h
      · intro h
        obtain ⟨a, b, hab, _⟩ := h (.removed o) (by simp)
        cases hab
    | unchanged o n =>
      constructor
      · intro h
        cases hd : d o n with
        | error e => simp only [processList, hd] at h; exact Except.noConfusion h
        | ok cs =>
          cases hr : processList d rest with
          | error e =>
            simp only [processList, hd, hr] at h
            exact Except.noConfusion h
          | ok tail =>
            simp only [processList, hd, hr, Except.ok.injEq] at h
            by_cases hcs : cs = []
            · rw [if_pos hcs] at h
              subst h
              intro c hc
              rcases List.mem_cons.mp hc with h1 | h1
              · exact ⟨o, n, h1, by rw [hd, hcs]⟩
              · exact ih.mp hr c h1
            · rw [if_neg hcs] at h
              exact absurd h (by simp)
      · intro h
        obtain ⟨a, b, hab, hd0⟩ := h (.unchanged o n) (by simp)
        injection hab with h1 h2
        subst h1; subst h2
        have hrest : processList d rest = .ok [] :=
          ih.mpr fun c hc => h c (List.mem_cons_of_mem _ hc)
        simp [processList, hd0, hrest]

theorem forall₂_of_zip_nil {d : Tree → Tree → Except DiffError (List Change)}
    {olds news : List Tree} (hlen : olds.length = news.length)
    (h : ∀ c ∈ List.zipWith PreChange.unchanged olds news,
      ∃ a b, c = PreChange.unchanged a b ∧ d a b = .ok []) :
    List.Forall₂ (fun a b => d a b = .ok []) olds news := by
  induction olds generalizing news with
  | nil =>
    cases news with
    | nil => exact List.Forall₂.nil
    | cons n ns => cases hlen
  | cons o os ih =>
    cases news with
    | nil => cases hlen
    | cons n ns =>
      obtain ⟨a, b, hab, hd⟩ := h (.unchanged o n) (by simp)
      injection hab with h1 h2
      subst h1; subst h2
      refine List.Forall₂.cons hd (ih (by simpa using hlen) ?_)
      intro c hc
      exact h c (by simp [hc])

theorem zip_nil_of_forall₂ {d : Tree → Tree → Except DiffError (List Change)}
    {olds news : List Tree}
    (h : List.Forall₂ (fun a b => d a b = .ok []) olds news) :
    ∀ c ∈ List.zipWith PreChange.unchanged olds news,
      ∃ a b, c = PreChange.unchanged a b ∧ d a b = .ok [] := by
  induction h with
  | nil => simp
  | cons hd _ ih =>
    intro c hc
    rcases List.mem_cons.mp (by simpa using hc) with h1 | h1
    · exact ⟨_, _, h1, hd⟩
    · exact ih c h1

theorem forall₂_and {α β : Type} {R S : α → β → Prop} {l1 : List α} {l2 : List β}
    (h1 : List.Forall₂ R l1 l2) (h2 : List.Forall₂ S l1 l2) :
    List.Forall₂ (fun a b => R a b ∧ S a b) l1 l2 := by
  induction h1 with
  | nil => exact List.Forall₂.nil
  | cons ha _ ih =>
    cases h2 with
    | cons hb htail => exact List.Forall₂.cons ⟨ha, hb⟩ (ih htail)

theorem recurse_diff_eq_nil_iff {t u : Tree} :
    recurse_diff t u = .ok [] ↔
      List.Forall₂
        (fun a b => shallow_equal a b = .ok true ∧ recurse_diff a b = .ok [])
        (iter_children t) (iter_children u) := by
  rw [recurse_diff_unfold]
  constructor
  · intro h
    cases halign : align shallow_equal (iter_children t) (iter_children u) with
    | error e => rw [halign] at h; exact Except.noConfusion h
    | ok pcs =>
      rw [halign] at h
      have hall := processList_eq_nil.mp h
      have h2b := align_all_unchanged halign fun c hc =>
        (hall c hc).imp fun a ha => ha.imp fun b hb => hb.1
      refine forall₂_and h2b.1 (forall₂_of_zip_nil h2b.1.length_eq ?_)
      intro c hc
      exact hall c (by rw [h2b.2]; exact hc)
  · intro h
    have h1 := h.imp fun a b hab => hab.1
    rw [align_of_forall₂ h1]
    exact processList_eq_nil.mpr (zip_nil_of_forall₂ (h.imp fun a b hab => hab.2))

theorem diff_nil_swap (N : Nat) :
    ∀ t u : Tree, t.size ≤ N → recurse_diff t u = .ok [] →
      recurse_diff u t = .ok [] := by
  induction N with
  | zero =>
    intro t u hN _
    exact absurd hN (by have := Tree.size_pos t; omega)
  | succ N ih =>
    intro t u hN h
    rw [recurse_diff_eq_nil_iff] at h ⊢
    have hmem : ∀ a ∈ iter_children t, a.size ≤ N := by
      intro a ha
      have := Tree.size_lt_of_mem_children (mem_children_of_mem_iter ha)
      omega
    clear hN
    revert hmem
    generalize iter_children t = olds at h ⊢
    generalize iter_children u = news at h ⊢
    induction h with
    | nil => intro _; exact List.Forall₂.nil
    | @cons a2 b2 l1 l2 hab htail ihtail =>
      intro hmem
      exact List.Forall₂.cons
        ⟨shallow_equal_symm_true hab.1,
          ih a2 b2 (hmem a2 (List.mem_cons_self ..)) hab.2⟩
        (ihtail fun x hx => hmem x (List.mem_cons_of_mem _ hx))

/-- C4 (counterexample).  Edit kinds do not invert under swapping the
inputs: for sibling lists `[A, B]` and `[B, A]` the diff one way is
`[Added B, Removed B]` and the other way `[Added A, Removed A]`, so
`Removed B` appears in the first but `Added B` nowhere in the second. -/
theorem c4_counterexample :
    recurse_diff (.node "r" [] none [leaf "A", leaf "B"])
        (.node "r" [] none [leaf "B", leaf "A"]) =
      .ok [.added (leaf "B"), .removed (leaf "B")] ∧
    recurse_diff (.node "r" [] none [leaf "B", leaf "A"])
        (.node "r" [] none [leaf "A", leaf "B"]) =
      .ok [.added (leaf "A"), .removed (leaf "A")] ∧
    Change.removed (leaf "B") ∈ [Change.added (leaf "B"), Change.removed (leaf "B")] ∧
    Change.added (leaf "B") ∉ [Change.added (leaf "A"), Change.removed (leaf "A")] :=
  ⟨by decide, by decide, by decide, by decide⟩

/-- C4 (amended).  Record-for-record inversion of edit kinds under input
swap fails (see the counterexample); what does invert is emptiness:
`diff(A, B)` is the empty change list exactly when `diff(B, A)` is. -/
theorem c4_empty_inverts (t u : Tree) :
    recurse_diff t u = .ok [] ↔ recurse_diff u t = .ok [] :=
  ⟨diff_nil_swap t.size t u (le_refl _), diff_nil_swap u.size u t (le_refl _)⟩

/-! Claim C3: the diff of a well-formed tree with itself is empty. -/

theorem lookup_eq_of_nodup {a : List (String × String)} {k : String} {v : String}
    (hn : (a.map Prod.fst).Nodup) (hm : (k, v) ∈ a) :
    List.lookup k a = some v := by
  induction a with
  | nil => cases hm
  | cons kv rest ih =>
    obtain ⟨k0, v0⟩ := kv
    simp only [List.map_cons, List.nodup_cons] at hn
    rcases List.mem_cons.mp hm with h1 | h1
    · injection h1 with e1 e2
      subst e1; subst e2
      simp [List.lookup]
    · have hk : (k == k0) = false := by
        refine beq_eq_false_iff_ne.mpr fun e => ?_
        subst e
        exact hn.1 (List.mem_map.mpr ⟨(k, v), h1, rfl⟩)
      simp only [List.lookup, hk]
      exact ih hn.2 h1

theorem dictEq_refl {a : List (String × String)}
    (hn : (a.map Prod.fst).Nodup) : dictEq a a = true := by
  unfold dictEq
  rw [Bool.and_self]
  simp only [List.all_eq_true, decide_eq_true_eq]
  intro kv hkv
  obtain ⟨k, v⟩ := kv
  exact lookup_eq_of_nodup hn hkv

theorem nodup_keys_filter {a : List (String × String)}
    {p : String × String → Bool} (hn : (a.map Prod.fst).Nodup) :
    (((a.filter p).map Prod.fst)).Nodup :=
  hn.sublist ((a.filter_sublist (p := p)).map Prod.fst)

theorem popValue_eq_some {a : List (String × String)} {v : String}
    {ra : List (String × String)} (h : popValue a = some (v, ra)) :
    List.lookup "Value" a = some v ∧
      ra = a.filter (fun kv => !(kv.1 == "Value")) := by
  unfold popValue at h
  cases hl : List.lookup "Value" a with
  | none => rw [hl] at h; cases h
  | some v2 =>
    simp only [hl, Option.some.injEq, Prod.mk.injEq] at h
    obtain ⟨h1, h2⟩ := h
    subst h1
    exact ⟨rfl, h2.symm⟩

theorem wfNode_elim {t : Tree} (h : wfNode t = true) :
    (t.attrib.map Prod.fst).Nodup ∧
      ((t.tag == "LeftTime" || t.tag == "RightTime") = true →
        ∃ v ra dv qv, popValue t.attrib = some (v, ra) ∧
          parseDec v = some dv ∧ quantizeE dv = .ok qv) ∧
      ((t.tag == "KeyTrack") = true → ∃ v, midiKey t = some v) := by
  unfold wfNode at h
  simp only [Bool.and_eq_true, decide_eq_true_eq] at h
  obtain ⟨⟨h1, h2⟩, h3⟩ := h
  refine ⟨h1, fun htag => ?_, fun htag => ?_⟩
  · rw [if_pos htag] at h2
    cases hpa : popValue t.attrib with
    | none => rw [hpa] at h2; cases h2
    | some pa =>
      obtain ⟨v, ra⟩ := pa
      cases hdv : parseDec v with
      | none => simp only [hpa, hdv] at h2; cases h2
      | some dv =>
        cases hqv : quantizeE dv with
        | error e => simp only [hpa, hdv, hqv] at h2; cases h2
        | ok qv => exact ⟨v, ra, dv, qv, by simp [hpa], by simp [hdv], by simp [hqv]⟩
  · rw [if_pos htag] at h3
    exact Option.isSome_iff_exists.mp h3

theorem shallow_equal_refl {t : Tree} (h : wfNode t = true) :
    shallow_equal t t = .ok true := by
  obtain ⟨hnodup, htime, hkey⟩ := wfNode_elim h
  unfold shallow_equal
  by_cases h1 : (t.tag == "LeftTime" || t.tag == "RightTime") = true
  · rw [if_pos h1]
    obtain ⟨v, ra, dv, qv, hpa, hdv, hqv⟩ := htime h1
    unfold LeftTime.shallow_equal
    rw [if_pos (by simp)]
    simp only [hpa, hdv, hqv, Except.ok.injEq, Bool.and_eq_true,
      decide_eq_true_eq]
    refine ⟨by trivial, ?_⟩
    have hra := (popValue_eq_some hpa).2
    rw [hra]
    exact dictEq_refl (nodup_keys_filter hnodup)
  · rw [if_neg h1]
    have hgen : GenericNode.shallow_equal t t = true := by
      simp [GenericNode.shallow_equal, dictEq_refl hnodup]
    by_cases h2 : (t.tag == "KeyTrack") = true
    · rw [if_pos h2]
      obtain ⟨v, hv⟩ := hkey h2
      unfold KeyTrack.shallow_equal
      simp [hv, hgen]
    · rw [if_neg h2, hgen]

theorem wfList_iff {cs : List Tree} :
    wfList cs = true ↔ ∀ c ∈ cs, wf c = true := by
  induction cs with
  | nil => simp [wfList]
  | cons c rest ih => simp [wfList, Bool.and_eq_true, ih]

theorem wf_elim {t : Tree} (h : wf t = true) :
    wfNode t = true ∧ ∀ c ∈ t.children, wf c = true := by
  cases t with
  | node tg a x cs =>
    rw [wf, Bool.and_eq_true] at h
    exact ⟨h.1, by simpa [Tree.children] using wfList_iff.mp h.2⟩

theorem diff_identity_aux (N : Nat) :
    ∀ t : Tree, t.size ≤ N → wf t = true → recurse_diff t t = .ok [] := by
  induction N with
  | zero =>
    intro t h _
    exact absurd h (by have := Tree.size_pos t; omega)
  | succ N ih =>
    intro t hN hwf
    rw [recurse_diff_eq_nil_iff, List.forall₂_same]
    intro c hc
    have hcch := mem_children_of_mem_iter hc
    have hwfc : wf c = true := (wf_elim hwf).2 c hcch
    have hsz : c.size ≤ N := by
      have := Tree.size_lt_of_mem_children hcch
      omega
    exact ⟨shallow_equal_refl (wf_elim hwfc).1, ih c hsz hwfc⟩

/-- C3.  For every tree satisfying the input contract — attribute keys
pairwise distinct, every time-value node carrying a parseable `Value`
attribute, every keyed-track node carrying a `MidiKey/@Value` lookup
result — the diff of the tree against itself is the empty change list. -/
theorem c3_diff_identity (t : Tree) (h : wf t = true) :
    recurse_diff t t = .ok [] :=
  diff_identity_aux t.size t (le_refl _) h

/-- C3 (witness): identity at a concrete tree containing a time-value
node, a keyed-track node and a generic node. -/
theorem c3_diff_identity_witness :
    wf (.node "root" [("a", "1")] none
        [.node "LeftTime" [("Value", "1.005")] none [],
         .node "KeyTrack" [] none [.node "MidiKey" [("Value", "64")] none []],
         .node "Other" [] (some " hi ") []]) = true ∧
      recurse_diff
        (.node "root" [("a", "1")] none
          [.node "LeftTime" [("Value", "1.005")] none [],
           .node "KeyTrack" [] none [.node "MidiKey" [("Value", "64")] none []],
           .node "Other" [] (some " hi ") []])
        (.node "root" [("a", "1")] none
          [.node "LeftTime" [("Value", "1.005")] none [],
           .node "KeyTrack" [] none [.node "MidiKey" [("Value", "64")] none []],
           .node "Other" [] (some " hi ") []]) = .ok [] :=
  ⟨by decide, c3_diff_identity _ (by decide)⟩

/-! Claim C7: the recursive post-pass over tentative unchanged pairs. -/

theorem processList_append {d : Tree → Tree → Except DiffError (List Change)}
    {xs ys : List PreChange} :
    processList d (xs ++ ys) =
      match processList d xs with
      | .error e => .error e
      | .ok cxs =>
        match processList d ys with
        | .error e => .error e
        | .ok cys => .ok (cxs ++ cys) := by
  induction xs with
  | nil =>
    cases hys : processList d ys with
    | error e => simp [processList, hys]
    | ok cys => simp [processList, hys]
  | cons pc rest ih =>
    cases pc with
    | added n =>
      cases hrx : processList d rest with
      | error e =>
        simp [processList, List.cons_append, List.append_eq, ih, hrx]
      | ok tail =>
        cases hys : processList d ys with
        | error e =>
          simp [processList, List.cons_append, List.append_eq, ih, hrx, hys]
        | ok cys =>
          simp [processList, List.cons_append, List.append_eq, ih, hrx, hys]
    | removed o =>
      cases hrx : processList d rest with
      | error e =>
        simp [processList, List.cons_append, List.append_eq, ih, hrx]
      | ok tail =>
        cases hys : processList d ys with
        | error e =>
          simp [processList, List.cons_append, List.append_eq, ih, hrx, hys]
        | ok cys =>
          simp [processList, List.cons_append, List.append_eq, ih, hrx, hys]
    | unchanged o n =>
      cases hd : d o n with
      | error e => simp [processList, List.cons_append, List.append_eq, hd]
      | ok cs =>
        cases hrx : processList d rest with
        | error e =>
          simp [processList, List.cons_append, List.append_eq, ih, hd, hrx]
        | ok tail =>
          cases hys : processList d ys with
          | error e =>
            simp [processList, List.cons_append, List.append_eq, ih, hd, hrx, hys]
          | ok cys =>
            simp only [processList, List.cons_append, List.append_eq, ih, hd, hrx, hys]
            by_cases hcs : cs = [] <;> simp [hcs]

/-- C7.  Whenever the alignment records a tentative unchanged pair, the
diff of the parent equals: the processed records before the pair, then —
exactly when the recursive diff of the pair is non-empty — a single
`Changed` record carrying the new node of the pair and the ordered nested
change list, then the processed records after the pair; an empty recursive
diff contributes no record at all. -/
theorem c7_changed_emission (t u a b : Tree) (xs ys : List PreChange)
    (h : align shallow_equal (iter_children t) (iter_children u) =
      .ok (xs ++ .unchanged a b :: ys)) :
    recurse_diff t u =
      match processList recurse_diff xs with
      | .error e => .error e
      | .ok cxs =>
        match recurse_diff a b with
        | .error e => .error e
        | .ok cs =>
          match processList recurse_diff ys with
          | .error e => .error e
          | .ok cys =>
            .ok (cxs ++ (if cs = [] then [] else [.changed b cs]) ++ cys) := by
  rw [recurse_diff_unfold, h]
  show processList recurse_diff (xs ++ .unchanged a b :: ys) = _
  rw [processList_append]
  cases hxs : processList recurse_diff xs with
  | error e => rfl
  | ok cxs =>
    cases hab : recurse_diff a b with
    | error e => simp [processList, hab]
    | ok cs =>
      cases hys : processList recurse_diff ys with
      | error e => simp [processList, hab, hys]
      | ok cys =>
        simp only [processList, hab, hys]
        by_cases hcs : cs = [] <;> simp [hcs]

/-- C7 (witness): a shallow-equal pair whose children differ produces a
single `Changed` record carrying the new node and the nested changes. -/
theorem c7_changed_emission_witness :
    align shallow_equal
        (iter_children (.node "r" [] none [.node "P" [] none [leaf "x"]]))
        (iter_children (.node "r" [] none [.node "P" [] none [leaf "y"]])) =
      .ok ([] ++ .unchanged (.node "P" [] none [leaf "x"])
        (.node "P" [] none [leaf "y"]) :: []) ∧
      recurse_diff (.node "r" [] none [.node "P" [] none [leaf "x"]])
          (.node "r" [] none [.node "P" [] none [leaf "y"]]) =
        .ok [.changed (.node "P" [] none [leaf "y"])
          [.removed (leaf "x"), .added (leaf "y")]] :=
  ⟨by decide,
    (c7_changed_emission (.node "r" [] none [.node "P" [] none [leaf "x"]])
      (.node "r" [] none [.node "P" [] none [leaf "y"]])
      (.node "P" [] none [leaf "x"]) (.node "P" [] none [leaf "y"]) [] []
      (by decide)).trans (by decide)⟩

/-! Claim C9: missing `MidiKey/@Value` lookups on keyed-track nodes. -/

/-- C9 (counterexample).  The claim asserts that a missing `MidiKey/@Value`
on a `KeyTrack` node on either side of a shallow-equal comparison raises a
fatal error identifying the offending node.  Both parts fail: when the
dispatching (left) node is not a `KeyTrack`, the comparison returns the
verdict `false` with no error even though the right node is a `KeyTrack`
missing its lookup; and when the error is raised, two different offending
nodes produce the identical bare `IndexError`, so the error identifies no
node. -/
theorem c9_keytrack_counterexample :
    shallow_equal (leaf "Foo") (.node "KeyTrack" [] none []) = .ok false ∧
      shallow_equal (.node "KeyTrack" [] none []) (leaf "Foo") =
        .error .indexError ∧
      shallow_equal (.node "KeyTrack" [("k", "1")] none []) (leaf "Foo") =
        .error .indexError ∧
      (.node "KeyTrack" [] none [] : Tree) ≠ .node "KeyTrack" [("k", "1")] none [] :=
  ⟨by decide, by decide, by decide, by decide⟩

theorem quantizeE_error {dv : Int × Nat} {e : DiffError}
    (h : quantizeE dv = .error e) : e = .invalidOperation := by
  unfold quantizeE at h
  dsimp only at h
  split at h
  · exact Except.noConfusion h
  · injection h with h
    exact h.symm

/-- C9 (amended).  When the dispatching (left) node of a comparison is a
`KeyTrack`, a missing `MidiKey/@Value` lookup on either side raises a bare
`IndexError` — propagated by the diff as a fatal error, with no default
substituted and no verdict returned, but also with no identification of the
offending node — while lookups present on both sides yield a verdict
without error.  When the dispatching node is not a `KeyTrack`, the
`MidiKey` lookup is never performed and the comparison can never fail with
that `IndexError` (time-value dispatch may still raise its own `KeyError`
or `InvalidOperation`). -/
theorem c9_keytrack_lookup_error (T U t u : Tree) (os ns : List Tree)
    (hT : iter_children T = t :: os) (hU : iter_children U = u :: ns) :
    (t.tag = "KeyTrack" →
      (midiKey t = none ∨ midiKey u = none →
        recurse_diff T U = .error .indexError ∧
          shallow_equal t u = .error .indexError) ∧
      (∀ v w, midiKey t = some v → midiKey u = some w →
        shallow_equal t u = .ok (GenericNode.shallow_equal t u && decide (v = w)))) ∧
    (t.tag ≠ "KeyTrack" → shallow_equal t u ≠ .error .indexError) := by
  constructor
  · intro htag
    have hdisp : shallow_equal t u = KeyTrack.shallow_equal t u := by
      unfold shallow_equal
      rw [if_neg (by rw [htag]; decide), if_pos (by rw [htag]; decide)]
    constructor
    · intro hmk
      have hse : shallow_equal t u = .error .indexError := by
        rw [hdisp]
        unfold KeyTrack.shallow_equal
        cases hmt : midiKey t with
        | none => rfl
        | some v =>
          rcases hmk with h | h
          · rw [hmt] at h
            exact Option.noConfusion h
          · simp only [hmt, h]
      refine ⟨?_, hse⟩
      rw [recurse_diff_unfold, hT, hU]
      simp only [align, hse]
    · intro v w hv hw
      rw [hdisp]
      unfold KeyTrack.shallow_equal
      simp only [hv, hw]
  · intro htag hcontra
    unfold shallow_equal at hcontra
    by_cases h1 : (t.tag == "LeftTime" || t.tag == "RightTime") = true
    · rw [if_pos h1] at hcontra
      unfold LeftTime.shallow_equal at hcontra
      by_cases hc : (decide (t.tag = u.tag) && decide (t.text = u.text)) = true
      · rw [if_pos hc] at hcontra
        cases hpa : popValue t.attrib with
        | none =>
          simp only [hpa] at hcontra
          exact absurd hcontra (by decide)
        | some pa =>
          obtain ⟨v, ra⟩ := pa
          cases hdv : parseDec v with
          | none =>
            simp only [hpa, hdv] at hcontra
            exact absurd hcontra (by decide)
          | some dv =>
            cases hqv : quantizeE dv with
            | error e =>
              rw [quantizeE_error hqv] at hqv
              simp only [hpa, hdv, hqv] at hcontra
              exact absurd hcontra (by decide)
            | ok qv =>
              cases hpb : popValue u.attrib with
              | none =>
                simp only [hpa, hdv, hqv, hpb] at hcontra
                exact absurd hcontra (by decide)
              | some pb =>
                obtain ⟨w, rb⟩ := pb
                cases hdw : parseDec w with
                | none =>
                  simp only [hpa, hdv, hqv, hpb, hdw] at hcontra
                  exact absurd hcontra (by decide)
                | some dw =>
                  cases hqw : quantizeE dw with
                  | error e =>
                    rw [quantizeE_error hqw] at hqw
                    simp only [hpa, hdv, hqv, hpb, hdw, hqw] at hcontra
                    exact absurd hcontra (by decide)
                  | ok qw =>
                    simp only [hpa, hdv, hqv, hpb, hdw, hqw] at hcontra
                    exact Except.noConfusion hcontra
      · rw [if_neg hc] at hcontra
        exact Except.noConfusion hcontra
    · rw [if_neg h1,
        if_neg (fun hb => htag (by simpa using hb))] at hcontra
      exact Except.noConfusion hcontra

/-- C9 (witness): a concrete `KeyTrack` child with no `MidiKey` child makes
the whole diff fail with `IndexError`, and a `MidiKey` missing on the
right-hand side of a `KeyTrack`-dispatched comparison fails the same
way. -/
theorem c9_keytrack_lookup_error_witness :
    iter_children (.node "r" [] none [.node "KeyTrack" [] none []]) =
        [.node "KeyTrack" [] none []] ∧
      iter_children (.node "r" [] none [leaf "G"]) = [leaf "G"] ∧
      Tree.tag (.node "KeyTrack" [] none []) = "KeyTrack" ∧
      midiKey (.node "KeyTrack" [] none []) = none ∧
      recurse_diff (.node "r" [] none [.node "KeyTrack" [] none []])
        (.node "r" [] none [leaf "G"]) = .error .indexError :=
  ⟨by decide, by decide, by decide, by decide,
    (((c9_keytrack_lookup_error (.node "r" [] none [.node "KeyTrack" [] none []])
      (.node "r" [] none [leaf "G"]) (.node "KeyTrack" [] none []) (leaf "G")
      [] [] (by decide) (by decide)).1 (by decide)).1 (Or.inl (by decide))).1⟩

/-! Claim C5: the rounding tolerance of time-value comparison. -/

theorem halfEvenDiv_bound (m d : Nat) (hd : 0 < d) :
    2 * ((halfEvenDiv m d : Int) * d - m).natAbs ≤ d := by
  unfold halfEvenDiv
  have hmod : m % d < d := Nat.mod_lt _ hd
  have hdm : d * (m / d) + m % d = m := Nat.div_add_mod m d
  generalize hq : m / d = q at *
  generalize hr : m % d = r at *
  subst hdm
  have e1 : ((q : Nat) : Int) * d - ((d * q + r : Nat) : Int) = -(r : Int) := by
    push_cast
    ring
  have e2 : ((q + 1 : Nat) : Int) * d - ((d * q + r : Nat) : Int) = (d : Int) - r := by
    push_cast
    ring
  by_cases h1 : 2 * r < d
  · rw [if_pos h1, e1]
    omega
  · rw [if_neg h1]
    by_cases h2 : d < 2 * r
    · rw [if_pos h2, e2]
      omega
    · rw [if_neg h2]
      by_cases h3 : q % 2 = 0
      · rw [if_pos h3, e1]
        omega
      · rw [if_neg h3, e2]
        omega

theorem quantize_close {v : Int × Nat} {q : Int} (h : quantizeE v = .ok q) :
    |ratOfDec v - (q : ℚ) / 100| ≤ 1 / 200 := by
  unfold quantizeE at h
  by_cases hpr : (quantizeHE v).natAbs < 10 ^ 28
  swap
  · rw [if_neg hpr] at h; cases h
  rw [if_pos hpr] at h
  injection h with h
  subst h
  clear hpr
  obtain ⟨i, s⟩ := v
  unfold quantizeHE ratOfDec
  by_cases hs : s ≤ 2
  · rw [if_pos hs]
    have h10 : (10 : ℚ) ^ (2 - s) * 10 ^ s = 100 := by
      rw [← pow_add]
      have : 2 - s + s = 2 := by omega
      rw [this]
      norm_num
    have hz :
        ((i * (10 : Int) ^ (2 - s) : Int) : ℚ) / 100 = (i : ℚ) / 10 ^ s := by
      push_cast
      rw [div_eq_div_iff (by norm_num) (by positivity)]
      calc (i : ℚ) * 10 ^ (2 - s) * 10 ^ s
          = (i : ℚ) * ((10 : ℚ) ^ (2 - s) * 10 ^ s) := by ring
        _ = (i : ℚ) * 100 := by rw [h10]
    rw [hz, sub_self, abs_zero]
    norm_num
  · rw [if_neg hs]
    set d := (10 : Nat) ^ (s - 2) with hdDef
    set qm := halfEvenDiv i.natAbs d with hqmDef
    have hd : 0 < d := Nat.pos_pow_of_pos _ (by norm_num)
    have hb := halfEvenDiv_bound i.natAbs d hd
    have h100d : (100 : ℚ) * d = 10 ^ s := by
      rw [hdDef]
      push_cast
      rw [show (100 : ℚ) = 10 ^ 2 from by norm_num, ← pow_add]
      congr 1
      omega
    set qi : Int := if i < 0 then -(qm : Int) else (qm : Int) with hqiDef
    have habs : (qi * d - i).natAbs = ((qm : Int) * d - i.natAbs).natAbs := by
      by_cases hneg : i < 0
      · have e3 : qi * d - i = -((qm : Int) * d - i.natAbs) := by
          rw [hqiDef, if_pos hneg]
          have hi : (i.natAbs : Int) = -i := by omega
          rw [hi]
          ring
        rw [e3, Int.natAbs_neg]
      · have e3 : qi * d - i = (qm : Int) * d - i.natAbs := by
          rw [hqiDef, if_neg hneg]
          have hi : (i.natAbs : Int) = i := by omega
          rw [hi]
        rw [e3]
    have hkey : |(i : ℚ) / 10 ^ s - (qi : ℚ) / 100| =
        (((qi * d - i).natAbs : ℚ)) / 10 ^ s := by
      have hqdiv : (qi : ℚ) / 100 = ((qi * d : Int) : ℚ) / 10 ^ s := by
        push_cast
        rw [div_eq_div_iff (by norm_num) (by positivity)]
        calc (qi : ℚ) * 10 ^ s = qi * ((100 : ℚ) * d) := by rw [h100d]
          _ = (qi : ℚ) * d * 100 := by ring
      rw [hqdiv, div_sub_div_same, abs_div,
        abs_of_pos (show (0 : ℚ) < 10 ^ s from by positivity)]
      congr 1
      rw [Int.cast_natAbs, ← Int.cast_sub]
      push_cast
      exact abs_sub_comm _ _
    rw [hkey, habs]
    rw [div_le_div_iff₀ (by positivity) (by norm_num), one_mul]
    have hble : ((2 * ((qm : Int) * d - i.natAbs).natAbs : Nat) : ℚ) ≤ (d : ℚ) :=
      by exact_mod_cast hb
    calc (((qm : Int) * d - i.natAbs).natAbs : ℚ) * 200
        = 100 * ((2 * ((qm : Int) * d - i.natAbs).natAbs : Nat) : ℚ) := by
          push_cast
          ring
      _ ≤ 100 * d := by nlinarith
      _ = 10 ^ s := h100d

/-- C5 (counterexample).  Round-half-even quantization makes both numeric
tolerance bounds of the claim fail: `0.1249` and `0.1251` differ by
`0.0002 < 0.005` yet quantize to `0.12` and `0.13` and are not
shallow-equal, while `0.115` and `0.125` differ by exactly `0.01 ≥ 0.01`
yet both quantize to `0.12` and are shallow-equal. -/
theorem c5_tolerance_counterexample :
    shallow_equal (.node "LeftTime" [("Value", "0.1249")] none [])
        (.node "LeftTime" [("Value", "0.1251")] none []) = .ok false ∧
      parseDec "0.1249" = some (1249, 4) ∧
      parseDec "0.1251" = some (1251, 4) ∧
      |ratOfDec (1249, 4) - ratOfDec (1251, 4)| < 5 / 1000 ∧
      shallow_equal (.node "LeftTime" [("Value", "0.115")] none [])
        (.node "LeftTime" [("Value", "0.125")] none []) = .ok true ∧
      parseDec "0.115" = some (115, 3) ∧
      parseDec "0.125" = some (125, 3) ∧
      1 / 100 ≤ |ratOfDec (115, 3) - ratOfDec (125, 3)| := by
  refine ⟨by decide, by decide, by decide, ?_, by decide, by decide, by decide, ?_⟩
  · unfold ratOfDec
    rw [show ((1249 : Int) : ℚ) / 10 ^ (4 : Nat) - ((1251 : Int) : ℚ) / 10 ^ (4 : Nat) =
      -(1 / 5000) from by norm_num]
    rw [abs_neg, abs_of_pos (by norm_num)]
    norm_num
  · unfold ratOfDec
    rw [show ((115 : Int) : ℚ) / 10 ^ (3 : Nat) - ((125 : Int) : ℚ) / 10 ^ (3 : Nat) =
      -(1 / 100) from by norm_num]
    rw [abs_neg, abs_of_pos (by norm_num)]

/-- C5 (amended).  Two time-value nodes with equal tag and text whose
remaining attributes agree are shallow-equal exactly when their `Value`
attributes, parsed as exact decimals, quantize (round half-even) to the
same two-fractional-digit value; consequently values differing by strictly
more than `0.01` are never shallow-equal, while differences below `0.005`
can still straddle a rounding boundary and compare unequal. -/
theorem c5_value_rounding (t u : Tree) (sv su : String)
    (ra rb : List (String × String)) (dv du : Int × Nat) (qv qu : Int)
    (ht : t.tag = "LeftTime") (hu : u.tag = "LeftTime") (htx : t.text = u.text)
    (hpa : popValue t.attrib = some (sv, ra))
    (hpb : popValue u.attrib = some (su, rb))
    (hdv : parseDec sv = some dv) (hdu : parseDec su = some du)
    (hqv : quantizeE dv = .ok qv) (hqu : quantizeE du = .ok qu)
    (hrest : dictEq ra rb = true) :
    shallow_equal t u = .ok (decide (qv = qu)) ∧
      (1 / 100 < |ratOfDec dv - ratOfDec du| → shallow_equal t u = .ok false) := by
  have h1 : shallow_equal t u = .ok (decide (qv = qu)) := by
    unfold shallow_equal
    rw [if_pos (by rw [ht]; decide)]
    unfold LeftTime.shallow_equal
    rw [if_pos (by simp [ht, hu, htx])]
    simp only [hpa, hdv, hqv, hpb, hdu, hqu, hrest, Bool.and_true]
  refine ⟨h1, fun hgt => ?_⟩
  rw [h1]
  have hne : qv ≠ qu := by
    intro he
    have b1 := quantize_close hqv
    have b2 := quantize_close hqu
    have hle : |ratOfDec dv - ratOfDec du| ≤ 1 / 100 := by
      calc |ratOfDec dv - ratOfDec du|
          ≤ |ratOfDec dv - (qv : ℚ) / 100| + |(qv : ℚ) / 100 - ratOfDec du| :=
            abs_sub_le _ _ _
        _ ≤ 1 / 200 + 1 / 200 := by
            refine add_le_add b1 ?_
            rw [he, abs_sub_comm]
            exact b2
        _ = 1 / 100 := by norm_num
    linarith
  simp [hne]

/-- C5 (witness): two time-value nodes with `Value` strings `0.1` and
`0.102` quantize to the same hundredth and compare shallow-equal. -/
theorem c5_value_rounding_witness :
    shallow_equal (.node "LeftTime" [("Value", "0.1")] none [])
        (.node "LeftTime" [("Value", "0.102")] none []) =
      .ok (decide ((10 : Int) = 10)) ∧
      shallow_equal (.node "LeftTime" [("Value", "0.1")] none [])
        (.node "LeftTime" [("Value", "0.102")] none []) = .ok true :=
  ⟨(c5_value_rounding (.node "LeftTime" [("Value", "0.1")] none [])
      (.node "LeftTime" [("Value", "0.102")] none []) "0.1" "0.102" [] []
      (1, 1) (102, 3) 10 10 rfl rfl rfl (by decide) (by decide) (by decide)
      (by decide) (by decide) (by decide) (by decide)).1,
    by decide⟩

/-! Claim C6: invisibility of ignored-tag nodes. -/

theorem stripList_eq (cs : List Tree) :
    stripList cs = (cs.filter keep).map strip := by
  induction cs with
  | nil => rfl
  | cons c rest ih =>
    by_cases hc : keep c = true
    · simp [stripList, List.filter_cons, hc, ih]
    · simp only [Bool.not_eq_true] at hc
      simp [stripList, List.filter_cons, hc, ih]

theorem strip_node (tg : String) (a : List (String × String))
    (x : Option String) (cs : List Tree) :
    strip (.node tg a x cs) = .node tg a x ((cs.filter keep).map strip) := by
  rw [strip, stripList_eq]

theorem strip_tag (t : Tree) : (strip t).tag = t.tag := by
  cases t with
  | node tg a x cs => rw [strip_node]; rfl

theorem strip_attrib (t : Tree) : (strip t).attrib = t.attrib := by
  cases t with
  | node tg a x cs => rw [strip_node]; rfl

theorem strip_text (t : Tree) : (strip t).text = t.text := by
  cases t with
  | node tg a x cs => rw [strip_node]; rfl

theorem strip_children (t : Tree) :
    (strip t).children = (t.children.filter keep).map strip := by
  cases t with
  | node tg a x cs => rw [strip_node]; rfl

theorem keep_strip (c : Tree) : keep (strip c) = keep c := by
  rw [keep, keep, strip_tag]

theorem iter_children_strip (t : Tree) :
    iter_children (strip t) = (iter_children t).map strip := by
  rw [iter_children, iter_children, strip_children, List.filter_map]
  rw [List.filter_congr (q := keep) fun x _ => by
    show keep (strip x) = keep x
    exact keep_strip x]
  rw [List.filter_filter]
  congr 1
  exact List.filter_congr fun x _ => by rw [Bool.and_self]

theorem keep_eq_false_iff {c : Tree} :
    keep c = false ↔ c.tag ∈ IGNORED_TAGS := by
  rw [keep, Bool.not_eq_false']
  show IGNORED_TAGS.elem c.tag = true ↔ _
  exact List.elem_iff

theorem filterMap_filter_keep {f : Tree → Option String}
    (hf : ∀ c, keep c = false → f c = none) (cs : List Tree) :
    (cs.filter keep).filterMap f = cs.filterMap f := by
  induction cs with
  | nil => rfl
  | cons c rest ih =>
    by_cases hc : keep c = true
    · rw [List.filter_cons, if_pos hc, List.filterMap_cons, List.filterMap_cons, ih]
    · have hc2 : keep c = false := by
        revert hc
        cases keep c <;> simp
      rw [List.filter_cons, if_neg (by simp [hc2]), List.filterMap_cons,
        hf c hc2, ih]

theorem midiKey_strip (t : Tree) : midiKey (strip t) = midiKey t := by
  rw [midiKey, midiKey, strip_children]
  congr 1
  rw [List.filterMap_map]
  have hcong : ∀ c : Tree,
      ((fun c => if c.tag == "MidiKey" then List.lookup "Value" c.attrib
        else none) ∘ strip) c =
      (fun c => if c.tag == "MidiKey" then List.lookup "Value" c.attrib
        else none) c := by
    intro c
    show (if (strip c).tag == "MidiKey" then _ else none) = _
    rw [strip_tag, strip_attrib]
  rw [List.filterMap_congr fun c _ => hcong c]
  refine filterMap_filter_keep (fun c hc => ?_) t.children
  have hmk : (c.tag == "MidiKey") = false := by
    have hmem := keep_eq_false_iff.mp hc
    refine beq_eq_false_iff_ne.mpr fun he => ?_
    rw [he] at hmem
    exact absurd hmem (by decide)
  show (if c.tag == "MidiKey" then _ else none) = none
  rw [hmk]
  rfl

theorem shallow_equal_strip (a b : Tree) :
    shallow_equal (strip a) (strip b) = shallow_equal a b := by
  rw [shallow_equal, shallow_equal, LeftTime.shallow_equal,
    LeftTime.shallow_equal, KeyTrack.shallow_equal, KeyTrack.shallow_equal,
    GenericNode.shallow_equal, GenericNode.shallow_equal,
    strip_tag, strip_tag, strip_attrib, strip_attrib, strip_text, strip_text,
    midiKey_strip, midiKey_strip]

theorem scanE_strip (o : Tree) (ns : List Tree) :
    scanE shallow_equal (strip o) (ns.map strip) = scanE shallow_equal o ns := by
  induction ns with
  | nil => rfl
  | cons n rest ih =>
    simp only [List.map_cons, scanE, shallow_equal_strip, ih]

theorem align_strip (olds news : List Tree) :
    align shallow_equal (olds.map strip) (news.map strip) =
      Except.map (List.map preStrip) (align shallow_equal olds news) := by
  induction olds generalizing news with
  | nil =>
    simp only [List.map_nil, align, Except.map]
    rw [List.map_map, List.map_map]
    rfl
  | cons o os ih =>
    cases news with
    | nil =>
      simp only [List.map_cons, List.map_nil, align]
      have ih2 := ih []
      simp only [List.map_nil] at ih2
      rw [ih2]
      cases align shallow_equal os [] with
      | error e => rfl
      | ok rest => rfl
    | cons n ns =>
      cases heq : shallow_equal o n with
      | error e =>
        simp only [List.map_cons, align, shallow_equal_strip, heq]
        rfl
      | ok bv =>
        cases bv with
        | true =>
          simp only [List.map_cons, align, shallow_equal_strip, heq]
          rw [ih]
          cases align shallow_equal os ns with
          | error e => rfl
          | ok rest => rfl
        | false =>
          cases hscan : scanE shallow_equal o ns with
          | error e =>
            simp only [List.map_cons, align, shallow_equal_strip, scanE_strip,
              heq, hscan]
            rfl
          | ok res =>
            cases res with
            | none =>
              simp only [List.map_cons, align, shallow_equal_strip, scanE_strip,
                heq, hscan]
              have ih2 := ih (n :: ns)
              simp only [List.map_cons] at ih2
              rw [ih2]
              cases align shallow_equal os (n :: ns) with
              | error e => rfl
              | ok rest => rfl
            | some k =>
              simp only [List.map_cons, align, shallow_equal_strip, scanE_strip,
                heq, hscan]
              rw [← List.map_drop, ih]
              cases align shallow_equal os (ns.drop (k + 1)) with
              | error e => rfl
              | ok rest =>
                simp only [Except.map, ← List.map_take, List.map_append,
                  List.map_cons, List.map_map]
                rfl

theorem changeStripList_eq (cs : List Change) :
    changeStripList cs = cs.map changeStrip := by
  induction cs with
  | nil => rfl
  | cons c rest ih => simp [changeStripList, ih]

theorem processList_strip : ∀ pcs : List PreChange,
    (∀ a b, PreChange.unchanged a b ∈ pcs →
      recurse_diff (strip a) (strip b) =
        Except.map (List.map changeStrip) (recurse_diff a b)) →
    processList recurse_diff (pcs.map preStrip) =
      Except.map (List.map changeStrip) (processList recurse_diff pcs) := by
  intro pcs
  induction pcs with
  | nil => intro _; rfl
  | cons pc rest ih =>
    intro hmem
    have hrest := ih fun a b hm => hmem a b (List.mem_cons_of_mem _ hm)
    cases pc with
    | added n =>
      simp only [List.map_cons, preStrip, processList, hrest]
      cases processList recurse_diff rest with
      | error e => rfl
      | ok tail => simp [Except.map, List.map_cons, changeStrip]
    | removed o =>
      simp only [List.map_cons, preStrip, processList, hrest]
      cases processList recurse_diff rest with
      | error e => rfl
      | ok tail => simp [Except.map, List.map_cons, changeStrip]
    | unchanged a b =>
      simp only [List.map_cons, preStrip, processList]
      rw [hmem a b (List.mem_cons_self ..)]
      cases hab : recurse_diff a b with
      | error e => rfl
      | ok cs =>
        simp only [Except.map]
        rw [hrest]
        cases processList recurse_diff rest with
        | error e => rfl
        | ok tail =>
          simp only [Except.map]
          by_cases hcs : cs = []
          · simp [hcs]
          · rw [if_neg (by simpa [List.map_eq_nil_iff] using hcs), if_neg hcs]
            simp [List.map_cons, changeStrip, changeStripList_eq]

theorem recurse_diff_strip_aux (N : Nat) :
    ∀ t u : Tree, t.size ≤ N →
      recurse_diff (strip t) (strip u) =
        Except.map (List.map changeStrip) (recurse_diff t u) := by
  induction N with
  | zero =>
    intro t u h
    exact absurd h (by have := Tree.size_pos t; omega)
  | succ N ih =>
    intro t u hN
    rw [recurse_diff_unfold (strip t), recurse_diff_unfold t,
      iter_children_strip, iter_children_strip, align_strip]
    cases halign : align shallow_equal (iter_children t) (iter_children u) with
    | error e => rfl
    | ok pcs =>
      show processList recurse_diff (pcs.map preStrip) =
        Except.map (List.map changeStrip) (processList recurse_diff pcs)
      refine processList_strip pcs fun a b hm => ?_
      have ha : a ∈ iter_children t := (align_unchanged_mem halign hm).1
      have := Tree.size_lt_of_mem_children (mem_children_of_mem_iter ha)
      exact ih a b (by omega)

theorem recurse_diff_strip (t u : Tree) :
    recurse_diff (strip t) (strip u) =
      Except.map (List.map changeStrip) (recurse_diff t u) :=
  recurse_diff_strip_aux t.size t u (le_refl _)

theorem IgnoredEdit.tag_eq {t t2 : Tree} (h : IgnoredEdit t t2) :
    t.tag = t2.tag := by
  cases h <;> rfl

theorem stripList_append (c1 c2 : List Tree) :
    stripList (c1 ++ c2) = stripList c1 ++ stripList c2 := by
  induction c1 with
  | nil => rfl
  | cons c rest ih =>
    by_cases hc : keep c = true
    · simp [stripList, List.cons_append, ih, hc]
    · simp only [Bool.not_eq_true] at hc
      simp [stripList, List.cons_append, ih, hc]

theorem keep_eq_false_of_mem {g : Tree} (hg : g.tag ∈ IGNORED_TAGS) :
    keep g = false :=
  keep_eq_false_iff.mpr hg

theorem edit_strip {t t2 : Tree} (h : IgnoredEdit t t2) : strip t = strip t2 := by
  induction h with
  | insert tg a x c1 c2 g hg =>
    rw [strip, strip, stripList_append, stripList_append]
    have : stripList (g :: c2) = stripList c2 := by
      simp [stripList, keep_eq_false_of_mem hg]
    rw [this]
  | remove tg a x c1 c2 g hg =>
    rw [strip, strip, stripList_append, stripList_append]
    have : stripList (g :: c2) = stripList c2 := by
      simp [stripList, keep_eq_false_of_mem hg]
    rw [this]
  | mutate tg a x c1 c2 g g2 hg hg2 =>
    rw [strip, strip, stripList_append, stripList_append]
    have h1 : stripList (g :: c2) = stripList c2 := by
      simp [stripList, keep_eq_false_of_mem hg]
    have h2 : stripList (g2 :: c2) = stripList c2 := by
      simp [stripList, keep_eq_false_of_mem hg2]
    rw [h1, h2]
  | child tg a x c1 c2 c c2t hsub ih =>
    rw [strip, strip, stripList_append, stripList_append]
    have hkeep : keep c = keep c2t := by
      rw [keep, keep, hsub.tag_eq]
    by_cases hc : keep c = true
    · have hc2 : keep c2t = true := hkeep ▸ hc
      simp [stripList, hc, hc2, ih]
    · simp only [Bool.not_eq_true] at hc
      have hc2 : keep c2t = false := hkeep ▸ hc
      simp [stripList, hc, hc2]

theorem editOpt_strip {t t2 : Tree} (h : IgnoredEditOpt t t2) :
    strip t2 = strip t := by
  rcases h with rfl | h | h
  · rfl
  · exact (edit_strip h).symm
  · exact edit_strip h

theorem changeOKList_iff {cs : List Change} :
    changeOKList cs = true ↔ ∀ c ∈ cs, changeOK c = true := by
  induction cs with
  | nil => simp [changeOKList]
  | cons c rest ih => simp [changeOKList, Bool.and_eq_true, ih]

theorem align_record_mem {eq : Tree → Tree → Except DiffError Bool}
    {olds news : List Tree} {pcs : List PreChange}
    (h : align eq olds news = .ok pcs) :
    (∀ n, PreChange.added n ∈ pcs → n ∈ news) ∧
      (∀ o, PreChange.removed o ∈ pcs → o ∈ olds) := by
  induction olds generalizing news pcs with
  | nil =>
    simp only [align, Except.ok.injEq] at h
    subst h
    constructor
    · intro n hn
      rcases List.mem_map.mp hn with ⟨m, hm, hmn⟩
      injection hmn with e
      exact e ▸ hm
    · intro o ho
      rcases List.mem_map.mp ho with ⟨m, _, hmn⟩
      cases hmn
  | cons o os ih =>
    cases news with
    | nil =>
      cases hsub : align eq os [] with
      | error e => simp only [align, hsub] at h; exact Except.noConfusion h
      | ok rest =>
        simp only [align, hsub, Except.ok.injEq] at h
        subst h
        constructor
        · intro n hn
          rcases List.mem_cons.mp hn with h1 | h1
          · cases h1
          · exact (ih hsub).1 n h1
        · intro o2 ho
          rcases List.mem_cons.mp ho with h1 | h1
          · injection h1 with e; exact e ▸ List.mem_cons_self ..
          · exact List.mem_cons_of_mem _ ((ih hsub).2 o2 h1)
    | cons n ns =>
      cases heq : eq o n with
      | error e => simp only [align, heq] at h; exact Except.noConfusion h
      | ok bv =>
        cases bv with
        | true =>
          cases hsub : align eq os ns with
          | error e =>
            simp only [align, heq, hsub] at h
            exact Except.noConfusion h
          | ok rest =>
            simp only [align, heq, hsub, Except.ok.injEq] at h
            subst h
            constructor
            · intro n2 hn
              rcases List.mem_cons.mp hn with h1 | h1
              · cases h1
              · exact List.mem_cons_of_mem _ ((ih hsub).1 n2 h1)
            · intro o2 ho
              rcases List.mem_cons.mp ho with h1 | h1
              · cases h1
              · exact List.mem_cons_of_mem _ ((ih hsub).2 o2 h1)
        | false =>
          cases hscan : scanE eq o ns with
          | error e =>
            simp only [align, heq, hscan] at h
            exact Except.noConfusion h
          | ok res =>
            cases res with
            | none =>
              cases hsub : align eq os (n :: ns) with
              | error e =>
                simp only [align, heq, hscan, hsub] at h
                exact Except.noConfusion h
              | ok rest =>
                simp only [align, heq, hscan, hsub, Except.ok.injEq] at h
                subst h
                constructor
                · intro n2 hn
                  rcases List.mem_cons.mp hn with h1 | h1
                  · cases h1
                  · exact (ih hsub).1 n2 h1
                · intro o2 ho
                  rcases List.mem_cons.mp ho with h1 | h1
                  · injection h1 with e; exact e ▸ List.mem_cons_self ..
                  · exact List.mem_cons_of_mem _ ((ih hsub).2 o2 h1)
            | some k =>
              cases hsub : align eq os (ns.drop (k + 1)) with
              | error e =>
                simp only [align, heq, hscan, hsub] at h
                exact Except.noConfusion h
              | ok rest =>
                simp only [align, heq, hscan, hsub, Except.ok.injEq] at h
                subst h
                constructor
                · intro n2 hn
                  rcases List.mem_cons.mp hn with h1 | h1
                  · injection h1 with e; exact e ▸ List.mem_cons_self ..
                  · rcases List.mem_append.mp h1 with h2 | h2
                    · rcases List.mem_map.mp h2 with ⟨m, hm, hmn⟩
                      injection hmn with e
                      exact List.mem_cons_of_mem _
                        (e ▸ List.take_subset _ _ hm)
                    · exact List.mem_cons_of_mem _
                        (List.drop_subset _ _ ((ih hsub).1 n2 h2))
                · intro o2 ho
                  rcases List.mem_cons.mp ho with h1 | h1
                  · cases h1
                  · rcases List.mem_append.mp h1 with h2 | h2
                    · rcases List.mem_map.mp h2 with ⟨m, _, hmn⟩
                      cases hmn
                    · exact List.mem_cons_of_mem _ ((ih hsub).2 o2 h2)

theorem processList_mem {d : Tree → Tree → Except DiffError (List Change)}
    {pcs : List PreChange} {cs : List Change} {c : Change}
    (h : processList d pcs = .ok cs) (hc : c ∈ cs) :
    (∃ n, c = .added n ∧ PreChange.added n ∈ pcs) ∨
      (∃ o, c = .removed o ∧ PreChange.removed o ∈ pcs) ∨
      (∃ a b cs2, c = .changed b cs2 ∧ PreChange.unchanged a b ∈ pcs ∧
        d a b = .ok cs2) := by
  induction pcs generalizing cs with
  | nil =>
    simp only [processList, Except.ok.injEq] at h
    subst h
    cases hc
  | cons pc rest ih =>
    cases pc with
    | added n =>
      cases hr : processList d rest with
      | error e => simp only [processList, hr] at h; exact Except.noConfusion h
      | ok tail =>
        simp only [processList, hr, Except.ok.injEq] at h
        subst h
        rcases List.mem_cons.mp hc with h1 | h1
        · exact Or.inl ⟨n, h1, List.mem_cons_self ..⟩
        · rcases ih hr h1 with h2 | h2 | h2
          · exact Or.inl (h2.imp fun n2 hh =>
              ⟨hh.1, List.mem_cons_of_mem _ hh.2⟩)
          · exact Or.inr (Or.inl (h2.imp fun o2 hh =>
              ⟨hh.1, List.mem_cons_of_mem _ hh.2⟩))
          · refine Or.inr (Or.inr ?_)
            obtain ⟨a, b, cs2, h3, h4, h5⟩ := h2
            exact ⟨a, b, cs2, h3, List.mem_cons_of_mem _ h4, h5⟩
    | removed o =>
      cases hr : processList d rest with
      | error e => simp only [processList, hr] at h; exact Except.noConfusion h
      | ok tail =>
        simp only [processList, hr, Except.ok.injEq] at h
        subst h
        rcases List.mem_cons.mp hc with h1 | h1
        · exact Or.inr (Or.inl ⟨o, h1, List.mem_cons_self ..⟩)
        · rcases ih hr h1 with h2 | h2 | h2
          · exact Or.inl (h2.imp fun n2 hh =>
              ⟨hh.1, List.mem_cons_of_mem _ hh.2⟩)
          · exact Or.inr (Or.inl (h2.imp fun o2 hh =>
              ⟨hh.1, List.mem_cons_of_mem _ hh.2⟩))
          · refine Or.inr (Or.inr ?_)
            obtain ⟨a, b, cs2, h3, h4, h5⟩ := h2
            exact ⟨a, b, cs2, h3, List.mem_cons_of_mem _ h4, h5⟩
    | unchanged a b =>
      cases hd : d a b with
      | error e => simp only [processList, hd] at h; exact Except.noConfusion h
      | ok cs2 =>
        cases hr : processList d rest with
        | error e =>
          simp only [processList, hd, hr] at h
          exact Except.noConfusion h
        | ok tail =>
          simp only [processList, hd, hr, Except.ok.injEq] at h
          subst h
          have htail : c ∈ tail →
              (∃ n, c = .added n ∧ PreChange.added n ∈
                PreChange.unchanged a b :: rest) ∨
              (∃ o, c = .removed o ∧ PreChange.removed o ∈
                PreChange.unchanged a b :: rest) ∨
              (∃ a2 b2 cs3, c = .changed b2 cs3 ∧
                PreChange.unchanged a2 b2 ∈ PreChange.unchanged a b :: rest ∧
                d a2 b2 = .ok cs3) := by
            intro h1
            rcases ih hr h1 with h2 | h2 | h2
            · exact Or.inl (h2.imp fun n2 hh =>
                ⟨hh.1, List.mem_cons_of_mem _ hh.2⟩)
            · exact Or.inr (Or.inl (h2.imp fun o2 hh =>
                ⟨hh.1, List.mem_cons_of_mem _ hh.2⟩))
            · refine Or.inr (Or.inr ?_)
              obtain ⟨a2, b2, cs3, h3, h4, h5⟩ := h2
              exact ⟨a2, b2, cs3, h3, List.mem_cons_of_mem _ h4, h5⟩
          by_cases hcs : cs2 = []
          · rw [if_pos hcs] at hc
            exact htail hc
          · rw [if_neg hcs] at hc
            rcases List.mem_cons.mp hc with h1 | h1
            · exact Or.inr (Or.inr ⟨a, b, cs2, h1,
                List.mem_cons_self .., hd⟩)
            · exact htail h1

theorem diff_changeOK_aux (N : Nat) :
    ∀ t u : Tree, ∀ cs : List Change, t.size ≤ N →
      recurse_diff t u = .ok cs → ∀ c ∈ cs, changeOK c = true := by
  induction N with
  | zero =>
    intro t u cs h _
    exact fun c _ => absurd h (by have := Tree.size_pos t; omega)
  | succ N ih =>
    intro t u cs hN h c hc
    rw [recurse_diff_unfold] at h
    cases halign : align shallow_equal (iter_children t) (iter_children u) with
    | error e => rw [halign] at h; exact Except.noConfusion h
    | ok pcs =>
      rw [halign] at h
      rcases processList_mem h hc with h2 | h2 | h2
      · obtain ⟨n, rfl, hmem⟩ := h2
        have hn : n ∈ iter_children u := (align_record_mem halign).1 n hmem
        show keep n = true
        exact List.of_mem_filter hn
      · obtain ⟨o, rfl, hmem⟩ := h2
        have ho : o ∈ iter_children t := (align_record_mem halign).2 o hmem
        show keep o = true
        exact List.of_mem_filter ho
      · obtain ⟨a, b, cs2, rfl, hmem, hd⟩ := h2
        have hab := align_unchanged_mem halign hmem
        have hb : b ∈ iter_children u := hab.2
        have ha : a ∈ iter_children t := hab.1
        have hsz : a.size ≤ N := by
          have := Tree.size_lt_of_mem_children (mem_children_of_mem_iter ha)
          omega
        show (keep b && changeOKList cs2) = true
        rw [Bool.and_eq_true]
        exact ⟨List.of_mem_filter hb,
          changeOKList_iff.mpr (ih a b cs2 hsz hd)⟩

/-- C6.  A single edit — insertion, removal, or mutation — applied anywhere
in either input tree to a node whose tag is in the ignored-tag set leaves
the diff output identical: the records, their kinds, order and nesting are
unchanged, with every referenced node equal up to its own invisible
ignored-tag content (`changeStrip`); moreover no node with an ignored tag
ever appears anywhere in the output. -/
theorem c6_ignored_invisibility (A A2 B B2 : Tree)
    (hA : IgnoredEditOpt A A2) (hB : IgnoredEditOpt B B2) :
    Except.map (List.map changeStrip) (recurse_diff A2 B2) =
      Except.map (List.map changeStrip) (recurse_diff A B) ∧
    (∀ cs, recurse_diff A2 B2 = .ok cs → changeOKList cs = true) := by
  constructor
  · calc Except.map (List.map changeStrip) (recurse_diff A2 B2)
        = recurse_diff (strip A2) (strip B2) := (recurse_diff_strip A2 B2).symm
      _ = recurse_diff (strip A) (strip B) := by
          rw [editOpt_strip hA, editOpt_strip hB]
      _ = Except.map (List.map changeStrip) (recurse_diff A B) :=
          recurse_diff_strip A B
  · intro cs hcs
    exact changeOKList_iff.mpr
      (diff_changeOK_aux A2.size A2 B2 cs (le_refl _) hcs)

/-- C6 (witness): inserting a `CurrentTime` node (an ignored tag) leaves
the diff output unchanged. -/
theorem c6_ignored_invisibility_witness :
    Except.map (List.map changeStrip)
        (recurse_diff
          (.node "r" [] none [.node "CurrentTime" [("Value", "9")] none [], leaf "x"])
          (.node "r" [] none [leaf "y"])) =
      Except.map (List.map changeStrip)
        (recurse_diff (.node "r" [] none [leaf "x"])
          (.node "r" [] none [leaf "y"])) ∧
      changeOKList [.removed (leaf "x"), .added (leaf "y")] = true :=
  ⟨(c6_ignored_invisibility (.node "r" [] none [leaf "x"])
      (.node "r" [] none [.node "CurrentTime" [("Value", "9")] none [], leaf "x"])
      (.node "r" [] none [leaf "y"]) (.node "r" [] none [leaf "y"])
      (Or.inr (Or.inl (IgnoredEdit.insert "r" [] none [] [leaf "x"]
        (.node "CurrentTime" [("Value", "9")] none []) (by decide))))
      (Or.inl rfl)).1,
    (c6_ignored_invisibility (.node "r" [] none [leaf "x"])
      (.node "r" [] none [.node "CurrentTime" [("Value", "9")] none [], leaf "x"])
      (.node "r" [] none [leaf "y"]) (.node "r" [] none [leaf "y"])
      (Or.inr (Or.inl (IgnoredEdit.insert "r" [] none [] [leaf "x"]
        (.node "CurrentTime" [("Value", "9")] none []) (by decide))))
      (Or.inl rfl)).2 [.removed (leaf "x"), .added (leaf "y")] (by decide)⟩

end AbletonDiff
